import Mathlib

/-!
# startheme: a shallow embedding of `src/main.go`

The program switches starship themes by repointing the symbolic link
`<home>/.config/starship.toml` at a file of `<home>/.config/starship/`.

The development has three layers.

* Go strings and the `path/filepath` functions the program calls
  (`Ext`, `Base`, `Clean`, `Join`), for the Unix build of the library.
* The operating system: a filesystem made of an inode table, with the
  path resolution of POSIX (symbolic links are followed, at most
  `maxSymlinks` of them per lookup) and the calls the program makes
  (`Stat`, `Lstat`, `Readlink`, `Remove`, `Symlink`, `ReadDir`).  The model
  knows the failures that depend on what the paths lead to (`ENOENT`,
  `ENOTDIR`, `ELOOP`, `EEXIST`, `EINVAL`, `ENOTEMPTY`, `EBUSY`).  It has no
  access rights, no read-only or full device, and no limit on the length of
  a name or a path (`EACCES`, `EROFS`, `ENOSPC`, `ENAMETOOLONG`): a call that
  succeeds in the model may be refused by a real system.  The theorems on
  activation and inspection therefore take the answers of the calls as
  hypotheses and do not infer that `Remove` or `Symlink` succeeds; only the
  agreement of listing and activation infers an answer of `Stat`, from the
  content of the directory listed.
* The program: `listThemes`, `changeTheme`, `getCurrentTheme`, `showHelp`
  and `main`, translated statement by statement.  A run yields the
  messages printed, how the process ended, and the filesystem it left.
-/

namespace Startheme

/-! ## Go strings -/

/-- A Go string is a sequence of bytes; `len` counts bytes. -/
abbrev GoString := List UInt8

/-- The bytes of an ASCII literal. -/
def ascii (s : String) : GoString := s.toList.map (fun c => UInt8.ofNat c.toNat)

/-- The path separator `'/'` (`os.PathSeparator` on Unix). -/
def sep : UInt8 := 47

/-- The byte `'.'`. -/
def dot : UInt8 := 46

/-- The literal `".toml"` of `main.go`. -/
def dotToml : GoString := [46, 116, 111, 109, 108]

/-- The slice expression `s[:hi]` for a signed index `hi`: Go panics
("slice bounds out of range") unless `0 ≤ hi ≤ len(s)`; `none` is the panic. -/
def sliceTo (s : GoString) (hi : Int) : Option GoString :=
  if 0 ≤ hi ∧ hi ≤ (s.length : Int) then some (s.take hi.toNat) else none

/-! ## `path/filepath` (Unix) -/

/-- The loop of `filepath.Ext`, run over the reversed path: `acc` is the part
of the path already passed, i.e. `path[i+1:]`. -/
def extLoop : List UInt8 → GoString → GoString
  | [], _ => []
  | c :: before, acc =>
    if c = sep then []
    else if c = dot then c :: acc
    else extLoop before (c :: acc)

/-- Go `filepath.Ext`: the suffix beginning at the final dot of the final
element of the path, empty when that element has no dot.
`for i := len(path)-1; i >= 0 && !os.IsPathSeparator(path[i]); i-- { if path[i] == '.' { return path[i:] } }; return ""`. -/
def Ext (path : GoString) : GoString := extLoop path.reverse []

/-- The path without its trailing separators (first loop of `filepath.Base`). -/
def stripTrailingSeps (path : GoString) : GoString :=
  (path.reverse.dropWhile (fun c => c = sep)).reverse

/-- The part of the path after its last separator, the whole path when it has
none (second loop of `filepath.Base`). -/
def lastElem (path : GoString) : GoString :=
  (path.reverse.takeWhile (fun c => c ≠ sep)).reverse

/-- Go `filepath.Base`: the last element of the path; `"."` for the empty
path, `"/"` for a path of separators only. -/
def Base (path : GoString) : GoString :=
  if path = [] then [dot]
  else
    let e := lastElem (stripTrailingSeps path)
    if e = [] then [sep] else e

/-- The pieces of a path between separators (`n` separators give `n + 1`
pieces, some possibly empty). -/
def splitSep : GoString → List GoString
  | [] => [[]]
  | c :: cs =>
    if c = sep then [] :: splitSep cs
    else
      match splitSep cs with
      | [] => [[c]]
      | h :: t => (c :: h) :: t

/-- One element of the path processed by `filepath.Clean`; `st` is the output
so far as a stack of elements, last one first.  Empty elements and `.` are
dropped; `..` removes the element before it, is dropped at the root, and is
kept where there is nothing to remove in a relative path. -/
def cleanStep (rooted : Bool) (st : List GoString) (c : GoString) : List GoString :=
  if c = [] ∨ c = [dot] then st
  else if c = [dot, dot] then
    match st with
    | [] => if rooted then [] else [c]
    | top :: below => if top = [dot, dot] then c :: st else below
  else c :: st

/-- The elements a path is cleaned to, in order. -/
def cleanElems (rooted : Bool) (path : GoString) : List GoString :=
  ((splitSep path).foldl (cleanStep rooted) []).reverse

/-- A separator-joined list of elements, after a leading separator when
rooted. -/
def renderPath (rooted : Bool) (elems : List GoString) : GoString :=
  (if rooted then [sep] else []) ++ List.intercalate [sep] elems

/-- Go `filepath.Clean` on Unix: the shortest path equivalent to `path` by
purely lexical processing; `"."` for the empty result. -/
def Clean (path : GoString) : GoString :=
  if path = [] then [dot]
  else
    let rooted := path.head? = some sep
    let out := renderPath rooted (cleanElems rooted path)
    if out = [] then [dot] else out

/-- Go `filepath.Join` on Unix: the elements from the first non-empty one on,
joined by separators and cleaned; the empty string when all are empty. -/
def Join : List GoString → GoString
  | [] => []
  | e :: rest =>
    if e = [] then Join rest
    else Clean (List.intercalate [sep] (e :: rest))

/-! ## The operating system -/

/-- The error numbers the modelled calls return.  `EUCLEAN` answers a corrupt
table: a directory entry whose inode does not exist. -/
inductive Errno
  | ENOENT
  | ENOTDIR
  | ELOOP
  | EEXIST
  | EINVAL
  | ENOTEMPTY
  | EBUSY
  | EUCLEAN
  deriving DecidableEq, Repr

/-- Go `os.IsNotExist` on the error of a system call: true for `ENOENT` only. -/
def IsNotExist (e : Errno) : Bool :=
  match e with
  | .ENOENT => true
  | _ => false

/-- An inode: a regular file (its content is never read by the program), a
symbolic link with its target string, or a directory mapping names to inode
numbers. -/
inductive INode
  | file
  | symlink (target : GoString)
  | dir (entries : List (GoString × Nat))
  deriving DecidableEq, Repr

/-- A filesystem state: the inode table (an inode's number is its position,
the root directory is inode `0`) and the working directory of the process, as
the chain of directory inodes from it up to the root. -/
structure FS where
  inodes : List INode
  cwd : List Nat
  deriving DecidableEq, Repr

/-- The type bits of a file mode. -/
inductive FileKind
  | regular
  | directory
  | symlink
  deriving DecidableEq, Repr

/-- Go `os.FileInfo`, reduced to what the program asks of it. -/
structure FileInfo where
  kind : FileKind
  deriving DecidableEq, Repr

/-- Go `info.IsDir()`. -/
def FileInfo.IsDir (info : FileInfo) : Bool :=
  match info.kind with
  | .directory => true
  | _ => false

/-- Go `info.Mode()&os.ModeSymlink != 0`. -/
def FileInfo.IsSymlink (info : FileInfo) : Bool :=
  match info.kind with
  | .symlink => true
  | _ => false

/-- The kind of an inode. -/
def INode.kind : INode → FileKind
  | .file => .regular
  | .symlink _ => .symlink
  | .dir _ => .directory

/-- The inode number a directory gives a name: the first binding of it. -/
def lookupEntry (name : GoString) : List (GoString × Nat) → Option Nat
  | [] => none
  | (n, i) :: rest => if n = name then some i else lookupEntry name rest

/-- The components of a path as the kernel walks them: the non-empty pieces
between separators; a trailing separator after a component reads as a final
`.` (the object must be a directory and a link before it is followed). -/
def pathComps (path : GoString) : List GoString :=
  let cs := (splitSep path).filter (fun c => c ≠ [])
  if cs ≠ [] ∧ path.getLast? = some sep then cs ++ [[dot]] else cs

/-- How a walk over path components ends. -/
inductive Walk
  | done (stack : List Nat)
  | link (stack : List Nat) (target : GoString) (rest : List GoString)
  | fail (e : Errno)
  deriving DecidableEq, Repr

/-- Walk the components from the directory on top of `stack` (the chain of
inodes up to the root), stopping at the first symbolic link met: `link` gives
the directory holding it, its target and the components left. -/
def walk (t : List INode) : List Nat → List GoString → Walk
  | stack, [] => .done stack
  | [], _ :: _ => .fail .ENOENT
  | cur :: up, c :: rest =>
    match t[cur]? with
    | some (.dir es) =>
      if c = [dot] then walk t (cur :: up) rest
      else if c = [dot, dot] then walk t (if up = [] then cur :: up else up) rest
      else
        match lookupEntry c es with
        | none => .fail .ENOENT
        | some i =>
          match t[i]? with
          | none => .fail .EUCLEAN
          | some (.symlink target) => .link (cur :: up) target rest
          | some _ => walk t (i :: cur :: up) rest
    | some _ => .fail .ENOTDIR
    | none => .fail .EUCLEAN

/-- The number of symbolic links one lookup may follow (Linux `MAXSYMLINKS`). -/
def maxSymlinks : Nat := 40

/-- Path resolution following every symbolic link, `fuel` of them at most:
the chain of inodes from the object reached up to the root. -/
def resolve (t : List INode) : Nat → List Nat → List GoString → Except Errno (List Nat)
  | fuel, stack, comps =>
    match walk t stack comps with
    | .done st => .ok st
    | .fail e => .error e
    | .link st target rest =>
      match fuel with
      | 0 => .error .ELOOP
      | fuel + 1 =>
        if target = [] then .error .ENOENT
        else resolve t fuel (if target.head? = some sep then [0] else st) (pathComps target ++ rest)

/-- Where the lookup of a path starts: the root for a rooted path, the
working directory otherwise. -/
def startOf (fs : FS) (path : GoString) : List Nat :=
  if path.head? = some sep then [0] else fs.cwd

/-- The inode a path leads to, every link followed. -/
def lookupFollow (fs : FS) (path : GoString) : Except Errno INode :=
  if path = [] then .error .ENOENT
  else
    match resolve fs.inodes maxSymlinks (startOf fs path) (pathComps path) with
    | .error e => .error e
    | .ok [] => .error .ENOENT
    | .ok (i :: _) =>
      match fs.inodes[i]? with
      | none => .error .EUCLEAN
      | some n => .ok n

/-- The final component of a path when it names a directory entry, with the
components before it; `none` for the empty path, the root, and a path ending
in `.`, `..` or a separator. -/
def finalName (path : GoString) : Option (List GoString × GoString) :=
  match (pathComps path).getLast? with
  | none => none
  | some c =>
    if c = [dot] ∨ c = [dot, dot] then none else some ((pathComps path).dropLast, c)

/-- The directory that holds the final component of a path. -/
structure Slot where
  dirIno : Nat
  entries : List (GoString × Nat)
  deriving DecidableEq, Repr

/-- Resolve the components before the final one, links followed, to a
directory. -/
def findSlot (fs : FS) (path : GoString) (init : List GoString) : Except Errno Slot :=
  match resolve fs.inodes maxSymlinks (startOf fs path) init with
  | .error e => .error e
  | .ok [] => .error .ENOENT
  | .ok (d :: _) =>
    match fs.inodes[d]? with
    | some (.dir es) => .ok ⟨d, es⟩
    | some _ => .error .ENOTDIR
    | none => .error .EUCLEAN

/-- The inode a path leads to, a link in final position not followed. -/
def lookupNoFollow (fs : FS) (path : GoString) : Except Errno INode :=
  match finalName path with
  | none => lookupFollow fs path
  | some (init, c) =>
    match findSlot fs path init with
    | .error e => .error e
    | .ok s =>
      match lookupEntry c s.entries with
      | none => .error .ENOENT
      | some i =>
        match fs.inodes[i]? with
        | none => .error .EUCLEAN
        | some n => .ok n

/-- Go `os.Stat`: the file a path leads to, links followed. -/
def Stat (fs : FS) (path : GoString) : Except Errno FileInfo :=
  match lookupFollow fs path with
  | .error e => .error e
  | .ok n => .ok ⟨n.kind⟩

/-- Go `os.Lstat`: as `Stat`, but a link in final position is reported
itself. -/
def Lstat (fs : FS) (path : GoString) : Except Errno FileInfo :=
  match lookupNoFollow fs path with
  | .error e => .error e
  | .ok n => .ok ⟨n.kind⟩

/-- Go `os.Readlink`: the target string of the link at a path, as stored. -/
def Readlink (fs : FS) (path : GoString) : Except Errno GoString :=
  match lookupNoFollow fs path with
  | .error e => .error e
  | .ok (.symlink target) => .ok target
  | .ok _ => .error .EINVAL

/-- The state with every binding of `name` removed from directory `d`. -/
def eraseEntry (fs : FS) (d : Nat) (es : List (GoString × Nat)) (name : GoString) : FS :=
  { fs with inodes := fs.inodes.set d (.dir (es.filter (fun e => e.1 ≠ name))) }

/-- Go `os.Remove` (`unlink`, then `rmdir`): removes a file, a link, or an
empty directory.  A trailing separator demands a directory. -/
def Remove (fs : FS) (path : GoString) : Except Errno FS :=
  let p := stripTrailingSeps path
  match finalName p with
  | none =>
    match lookupFollow fs path with
    | .error e => .error e
    | .ok _ =>
      match (pathComps p).getLast? with
      | none => .error .EBUSY
      | some c => if c = [dot] then .error .EINVAL else .error .ENOTEMPTY
  | some (init, c) =>
    match findSlot fs p init with
    | .error e => .error e
    | .ok s =>
      match lookupEntry c s.entries with
      | none => .error .ENOENT
      | some i =>
        match fs.inodes[i]? with
        | none => .error .EUCLEAN
        | some (.dir es) =>
          if es = [] then .ok (eraseEntry fs s.dirIno s.entries c) else .error .ENOTEMPTY
        | some _ =>
          if p = path then .ok (eraseEntry fs s.dirIno s.entries c) else .error .ENOTDIR

/-- The state with a new inode `n` bound to `name` in directory `d`. -/
def addEntry (fs : FS) (d : Nat) (es : List (GoString × Nat)) (name : GoString) (n : INode) : FS :=
  { fs with inodes := fs.inodes.set d (.dir (es ++ [(name, fs.inodes.length)])) ++ [n] }

/-- Go `os.Symlink(oldname, newname)`: creates `newname` as a link holding the
string `oldname`; fails with `EEXIST` when `newname` exists (trailing
separators or not), with `ENOENT` when its directory does not, when
`newname` ends in a separator, or when `oldname` is empty. -/
def Symlink (fs : FS) (oldname newname : GoString) : Except Errno FS :=
  let p := stripTrailingSeps newname
  match finalName p with
  | none =>
    match lookupFollow fs newname with
    | .error e => .error e
    | .ok _ => .error .EEXIST
  | some (init, c) =>
    match findSlot fs p init with
    | .error e => .error e
    | .ok s =>
      match lookupEntry c s.entries with
      | some _ => .error .EEXIST
      | none =>
        if p ≠ newname then .error .ENOENT
        else if oldname = [] then .error .ENOENT
        else .ok (addEntry fs s.dirIno s.entries c (.symlink oldname))

/-- Go `os.DirEntry`, reduced to `Name()` and `IsDir()`. -/
structure DirEntry where
  Name : GoString
  IsDir : Bool
  deriving DecidableEq, Repr

/-- Bytewise order of Go strings (`<=`). -/
def bytesLe : GoString → GoString → Bool
  | [], _ => true
  | _ :: _, [] => false
  | a :: as, b :: bs => if a < b then true else if b < a then false else bytesLe as bs

/-- The entry `ReadDir` reports for a binding: a link is not a directory,
whatever it points to. -/
def toDirEntry (t : List INode) (e : GoString × Nat) : DirEntry :=
  match t[e.2]? with
  | some (.dir _) => ⟨e.1, true⟩
  | _ => ⟨e.1, false⟩

/-- Go `os.ReadDir`: the entries of the directory a path leads to, sorted by
file name. -/
def ReadDir (fs : FS) (path : GoString) : Except Errno (List DirEntry) :=
  match lookupFollow fs path with
  | .error e => .error e
  | .ok (.dir es) =>
    .ok ((es.map (toDirEntry fs.inodes)).insertionSort (fun a b => bytesLe a.Name b.Name = true))
  | .ok _ => .error .ENOTDIR

/-! ## The program -/

/-- What the program prints, one constructor for each `fmt.Printf`/`fmt.Print`
of `main.go` (colour codes left out), named by its line. -/
inductive Msg
  /-- Line 24: `Error getting home directory`. -/
  | homeDirError
  /-- Line 36: `missing arguments`. -/
  | missingArguments
  /-- Line 45: `Unknown subcommand: %s`. -/
  | unknownSubcommand (arg : GoString)
  /-- Line 65: the help text. -/
  | help
  /-- Line 71: `Error reading starship directory: %v`. -/
  | readDirError (e : Errno)
  /-- Line 75: `Available themes:`. -/
  | availableThemes
  /-- Line 80: one theme name. -/
  | theme (name : GoString)
  /-- Line 91: `%s: No such file or directory` (ThemeNotFound). -/
  | noSuchFile (name : GoString)
  /-- Line 95: `Error checking theme file: %v` (StatError). -/
  | statError (e : Errno)
  /-- Line 99: `%s is a directory` (ThemeIsDirectory). -/
  | isDirectory (name : GoString)
  /-- Line 106: `Error removing existing config: %v` (RemoveFailed). -/
  | removeError (e : Errno)
  /-- Line 113: `Error creating symlink: %v` (LinkCreateFailed). -/
  | symlinkError (e : Errno)
  /-- Line 117: `Successfully changed theme to: %s`. -/
  | changed (name : GoString)
  /-- Line 124: `No starship config found`. -/
  | noConfigFound
  /-- Line 128: `Error checking config: %v`. -/
  | lstatError (e : Errno)
  /-- Line 135: `Error reading symlink: %v`. -/
  | readlinkError (e : Errno)
  /-- Line 145: `Current theme: %s`. -/
  | currentTheme (name : GoString)
  /-- Line 147: `starship.toml is not a symlink (not managed by startheme)`. -/
  | notManaged
  deriving DecidableEq, Repr

/-- How a run ends: the function returns, `os.Exit(code)` is called, or a
run-time panic stops the program. -/
inductive Exit
  | returned
  | exited (code : Nat)
  | panicked
  deriving DecidableEq, Repr

/-- The exit status of the process when `main` ends this way (a panic ends a
Go program with status 2). -/
def Exit.status : Exit → Nat
  | .returned => 0
  | .exited code => code
  | .panicked => 2

/-- The outcome of a run: what was printed, how it ended, the filesystem
left behind. -/
structure Result where
  out : List Msg
  exit : Exit
  fs : FS
  deriving DecidableEq, Repr

/-- Source `showHelp` (lines 51-66). -/
def showHelp : List Msg := [.help]

/-- The loop of `listThemes` (lines 76-82): the lines printed, and whether the
loop ran to its end (`false`: the slice of line 79 panicked). -/
def listLoop : List DirEntry → List Msg × Bool
  | [] => ([], true)
  | entry :: rest =>
    if entry.IsDir = false ∧ Ext entry.Name = dotToml then
      match sliceTo entry.Name ((entry.Name.length : Int) - 5) with
      | none => ([], false)
      | some themeName => (.theme themeName :: (listLoop rest).1, (listLoop rest).2)
    else listLoop rest

/-- Source `listThemes` (lines 68-83). -/
def listThemes (fs : FS) (starshipDir : GoString) : Result :=
  match ReadDir fs starshipDir with
  | .error e => ⟨[.readDirError e], .exited 1, fs⟩
  | .ok entries =>
    ⟨.availableThemes :: (listLoop entries).1,
      if (listLoop entries).2 then .returned else .panicked, fs⟩

/-- Lines 104-109 of `changeTheme`: remove what `Lstat` finds at the
configuration path. -/
def removeExisting (fs : FS) (starshipConfig : GoString) : Except Errno FS :=
  match Lstat fs starshipConfig with
  | .ok _ => Remove fs starshipConfig
  | .error _ => .ok fs

/-- Source `changeTheme` (lines 85-118). -/
def changeTheme (fs : FS) (starshipDir starshipConfig themeName : GoString) : Result :=
  let themeFile := Join [starshipDir, themeName ++ dotToml]
  match Stat fs themeFile with
  | .error e =>
    if IsNotExist e then ⟨[.noSuchFile themeName], .exited 1, fs⟩
    else ⟨[.statError e], .exited 1, fs⟩
  | .ok info =>
    if info.IsDir then ⟨[.isDirectory themeName], .exited 1, fs⟩
    else
      match removeExisting fs starshipConfig with
      | .error e => ⟨[.removeError e], .exited 1, fs⟩
      | .ok fs1 =>
        match Symlink fs1 themeFile starshipConfig with
        | .error e => ⟨[.symlinkError e], .exited 1, fs1⟩
        | .ok fs2 => ⟨[.changed themeName], .returned, fs2⟩

/-- Lines 140-143 of `getCurrentTheme`: the theme name taken from the link
target; `none` is a panic of the slice. -/
def themeNameOf (target : GoString) : Option GoString :=
  let themeName := Base target
  if Ext themeName = dotToml then sliceTo themeName ((themeName.length : Int) - 5)
  else some themeName

/-- Source `getCurrentTheme` (lines 120-149). -/
def getCurrentTheme (fs : FS) (starshipConfig : GoString) : Result :=
  match Lstat fs starshipConfig with
  | .error e =>
    if IsNotExist e then ⟨[.noConfigFound], .returned, fs⟩
    else ⟨[.lstatError e], .returned, fs⟩
  | .ok info =>
    if info.IsSymlink then
      match Readlink fs starshipConfig with
      | .error e => ⟨[.readlinkError e], .returned, fs⟩
      | .ok target =>
        match themeNameOf target with
        | none => ⟨[], .panicked, fs⟩
        | some themeName => ⟨[.currentTheme themeName], .returned, fs⟩
    else ⟨[.notManaged], .returned, fs⟩

/-- Source `main` (lines 16-49).  `args` is `os.Args` (the program name
first), `home` the value of `$HOME`, empty when unset: `os.UserHomeDir`
fails exactly then. -/
def main (args : List GoString) (home : GoString) (fs : FS) : Result :=
  match args with
  | [] => ⟨showHelp, .returned, fs⟩
  | [_] => ⟨showHelp, .returned, fs⟩
  | _ :: sub :: rest =>
    if home = [] then ⟨[.homeDirError], .exited 1, fs⟩
    else
      let starshipDir := Join [home, ascii ".config", ascii "starship"]
      let starshipConfig := Join [home, ascii ".config", ascii "starship.toml"]
      if sub = ascii "list" then listThemes fs starshipDir
      else if sub = ascii "change" then
        match rest with
        | [] => ⟨[.missingArguments], .exited 1, fs⟩
        | themeName :: _ => changeTheme fs starshipDir starshipConfig themeName
      else if sub = ascii "get" then getCurrentTheme fs starshipConfig
      else if sub = ascii "help" ∨ sub = ascii "-h" ∨ sub = ascii "--help" then
        ⟨showHelp, .returned, fs⟩
      else ⟨.unknownSubcommand sub :: showHelp, .exited 1, fs⟩

/-! ## Specification-side definitions and example states -/

/-- The entries a listing must show, in the words of the specification: not
a directory, and the name ends in `.toml`. -/
def isThemeEntry (e : DirEntry) : Bool :=
  decide (e.IsDir = false ∧ dotToml <:+ e.Name)

/-- The theme names of a directory listing, in the words of the
specification: the names of the theme entries, in the order of the listing,
each without its last five bytes. -/
def themeNames (entries : List DirEntry) : List GoString :=
  (entries.filter isThemeEntry).map (fun e => e.Name.take (e.Name.length - 5))

/-- An example state: `/themes` holds the files `b.toml`, `a.toml`,
`notes.txt` and the directory `sub`, which holds the file `x.toml`; `/cfg` is
a regular file.  Inodes: 0 `/`, 1 `/themes`, 2 `b.toml`, 3 `a.toml`, 4 `sub`,
5 `notes.txt`, 6 `sub/x.toml`, 7 `/cfg`. -/
def exampleFS : FS :=
  { inodes :=
      [.dir [(ascii "themes", 1), (ascii "cfg", 7)],
       .dir [(ascii "b.toml", 2), (ascii "a.toml", 3), (ascii "sub", 4), (ascii "notes.txt", 5)],
       .file, .file, .dir [(ascii "x.toml", 6)], .file, .file, .file],
    cwd := [0] }

/-! ## Predicates used in the statements and proofs -/

/-- Node `m` keeps what node `n` has: the same file or link, or a directory
that still gives every name the inode `n` gave it. -/
def NodeKeeps (n m : INode) : Prop :=
  match n with
  | .file => m = .file
  | .symlink target => m = .symlink target
  | .dir es => ∃ es2, m = .dir es2 ∧ ∀ x i, lookupEntry x es = some i → lookupEntry x es2 = some i

/-- Table `t2` keeps what table `t` has. -/
def TableKeeps (t t2 : List INode) : Prop :=
  ∀ (i : Nat) (n : INode), t[i]? = some n → ∃ m, t2[i]? = some m ∧ NodeKeeps n m

/-- A file name in the sense of a directory entry: not empty, without
separator, and neither `.` nor `..`. -/
def IsFileName (e : GoString) : Prop :=
  e ≠ [] ∧ sep ∉ e ∧ e ≠ [dot] ∧ e ≠ [dot, dot]

/-- A path prefix after which a file name starts: empty, or ending in a
separator. -/
def IsDirPart (r : GoString) : Prop :=
  r = [] ∨ ∃ r2, r = r2 ++ [sep]

/-- A second example state: as `exampleFS`, but `/cfg` is a symbolic link
holding `/themes/b.toml` (inode 7). -/
def linkedFS : FS :=
  { inodes :=
      [.dir [(ascii "themes", 1), (ascii "cfg", 7)],
       .dir [(ascii "b.toml", 2), (ascii "a.toml", 3), (ascii "sub", 4), (ascii "notes.txt", 5)],
       .file, .file, .dir [(ascii "x.toml", 6)], .file, .file,
       .symlink (ascii "/themes/b.toml")],
    cwd := [0] }

/-- A state in which the configuration link is itself on the way to its own
directory: `/.config` holds the directory `starship` (with `a.toml`) and the
link `starship.toml`, which holds `/`.  With `$HOME` set to
`/.config/starship.toml` the configuration path is
`/.config/starship.toml/.config/starship.toml`.  Inodes: 0 `/`, 1 `/.config`,
2 the link, 3 `starship`, 4 `a.toml`. -/
def loopFS : FS :=
  { inodes :=
      [.dir [(ascii ".config", 1)],
       .dir [(ascii "starship.toml", 2), (ascii "starship", 3)],
       .symlink (ascii "/"), .dir [(ascii "a.toml", 4)], .file],
    cwd := [0] }

/-- An element of a cleaned path: not empty and without separator. -/
def IsElem (x : GoString) : Prop := x ≠ [] ∧ sep ∉ x

/-- A state for the cleaning of paths: `/a` is a symbolic link holding
`/x/y`, and `/x` holds the directories `y` and `themes`, the latter with the
file `t.toml`; there is no `/themes`.  Inodes: 0 `/`, 1 the link `/a`,
2 `/x`, 3 `/x/y`, 4 `/x/themes`, 5 `t.toml`. -/
def detourFS : FS :=
  { inodes :=
      [.dir [(ascii "a", 1), (ascii "x", 2)], .symlink (ascii "/x/y"),
       .dir [(ascii "y", 3), (ascii "themes", 4)], .dir [],
       .dir [(ascii "t.toml", 5)], .file],
    cwd := [0] }

/-- The kind of the inode with a given number, if there is one. -/
def entryKind (fs : FS) (i : Nat) : Option FileKind := (fs.inodes[i]?).map INode.kind

/-- A stack of cleaned elements, last one first: file names above a run of
`..`, which is empty in a rooted path. -/
def IsCleanStack (r : Bool) (st : List GoString) : Prop :=
  ∃ k names, st = names ++ List.replicate k [dot, dot] ∧ (∀ x ∈ names, IsFileName x)
    ∧ (r = true → k = 0)

/-- The final path component of a path, in the words of the specification:
the last non-empty piece between separators; none for the empty path and for
a path of separators only. -/
def lastComponent (t : GoString) : Option GoString :=
  ((splitSep t).filter (fun c => c ≠ [])).getLast?

/-- A state in which `/h/.config` is a regular file, so that nothing can
exist below it.  Inodes: 0 `/`, 1 `/h`, 2 `/h/.config`. -/
def homeFileFS : FS :=
  { inodes := [.dir [(ascii "h", 1)], .dir [(ascii ".config", 2)], .file],
    cwd := [0] }

/-- As `linkedFS`, but the link `/cfg` holds `themes/a.toml//`, a relative
target with trailing separators. -/
def slashLinkFS : FS :=
  { inodes :=
      [.dir [(ascii "themes", 1), (ascii "cfg", 7)],
       .dir [(ascii "b.toml", 2), (ascii "a.toml", 3), (ascii "sub", 4), (ascii "notes.txt", 5)],
       .file, .file, .dir [(ascii "x.toml", 6)], .file, .file,
       .symlink (ascii "themes/a.toml//")],
    cwd := [0] }

instance instDecidableIsFileName (e : GoString) : Decidable (IsFileName e) := by
  unfold IsFileName
  exact inferInstance

/-! ## The library and system models on known cases -/

/-- The model of `filepath.Clean` on cases of the test table of Go's
`path/filepath` package. -/
theorem Clean_known_cases :
    Clean (ascii "abc//def//ghi") = ascii "abc/def/ghi"
    ∧ Clean (ascii "abc/def/../ghi/../jkl") = ascii "abc/jkl"
    ∧ Clean (ascii "abc/def/../../..") = ascii ".."
    ∧ Clean (ascii "/abc/def/../../..") = ascii "/"
    ∧ Clean (ascii "abc/../../././../def") = ascii "../../def"
    ∧ Clean (ascii "/../abc") = ascii "/abc"
    ∧ Clean (ascii "../../abc/") = ascii "../../abc"
    ∧ Clean (ascii "abc/./../def") = ascii "def"
    ∧ Clean (ascii "") = ascii "."
    ∧ Clean (ascii "//") = ascii "/" := by
  decide

/-- The models of `filepath.Join`, `filepath.Base` and `filepath.Ext` on
cases of Go's tests and of the program. -/
theorem Join_Base_Ext_known_cases :
    Join [ascii "/home/u", ascii ".config", ascii "starship"] = ascii "/home/u/.config/starship"
    ∧ Join [ascii "", ascii "a"] = ascii "a"
    ∧ Join [ascii "", ascii ""] = ascii ""
    ∧ Join [ascii "a", ascii ""] = ascii "a"
    ∧ Join [ascii "/", ascii "a"] = ascii "/a"
    ∧ Join [ascii "a/", ascii "../b"] = ascii "b"
    ∧ Base (ascii "") = ascii "."
    ∧ Base (ascii "/") = ascii "/"
    ∧ Base (ascii "a/b/") = ascii "b"
    ∧ Base (ascii "/a/b.toml") = ascii "b.toml"
    ∧ Ext (ascii "path.go") = ascii ".go"
    ∧ Ext (ascii "a.dir/b") = ascii ""
    ∧ Ext (ascii "a.dir/") = ascii ""
    ∧ Ext (ascii "x.tar.toml") = ascii ".toml" := by
  decide

/-- The system model on `linkedFS`: `Stat` follows the link at `/cfg`,
`Lstat` and `Readlink` do not; a path through a regular file is `ENOTDIR`; a
trailing separator after a link to a file is `ENOTDIR`; removing a non-empty
directory is `ENOTEMPTY`; making a link where something exists is `EEXIST`,
also when the name given ends in a separator. -/
theorem system_known_cases :
    Stat linkedFS (ascii "/cfg") = .ok ⟨FileKind.regular⟩
    ∧ Lstat linkedFS (ascii "/cfg") = .ok ⟨FileKind.symlink⟩
    ∧ Readlink linkedFS (ascii "/cfg") = .ok (ascii "/themes/b.toml")
    ∧ Readlink linkedFS (ascii "/themes") = .error .EINVAL
    ∧ Stat linkedFS (ascii "/themes/a.toml/x") = .error .ENOTDIR
    ∧ Stat linkedFS (ascii "/cfg/") = .error .ENOTDIR
    ∧ Stat linkedFS (ascii "/themes/sub/../a.toml") = .ok ⟨FileKind.regular⟩
    ∧ Stat linkedFS (ascii "themes/sub") = .ok ⟨FileKind.directory⟩
    ∧ Remove linkedFS (ascii "/themes") = .error .ENOTEMPTY
    ∧ Symlink linkedFS (ascii "x") (ascii "/cfg") = .error .EEXIST
    ∧ Symlink linkedFS (ascii "x") (ascii "/none/cfg") = .error .ENOENT
    ∧ Symlink linkedFS (ascii "x") (ascii "/cfg/") = .error .EEXIST
    ∧ Symlink linkedFS (ascii "x") (ascii "/new/") = .error .ENOENT
    ∧ Symlink linkedFS (ascii "") (ascii "/new") = .error .ENOENT :=
  ⟨rfl, rfl, rfl, rfl, rfl, rfl, rfl, rfl, rfl, rfl, rfl, rfl, rfl, rfl⟩

/-! ## Facts about the string functions -/

theorem extLoop_suffix (rev : List UInt8) (acc : GoString) :
    extLoop rev acc <:+ rev.reverse ++ acc := by
  induction rev generalizing acc with
  | nil => simp [extLoop]
  | cons c before ih =>
    unfold extLoop
    split
    · exact List.nil_suffix
    · split
      · simp
      · have := ih (c :: acc)
        simpa using this

theorem Ext_suffix (path : GoString) : Ext path <:+ path := by
  have := extLoop_suffix path.reverse []
  simpa [Ext] using this

theorem Ext_append_dotToml (stem : GoString) : Ext (stem ++ dotToml) = dotToml := by
  simp [Ext, dotToml, extLoop, sep, dot]

theorem Ext_eq_dotToml_iff (path : GoString) : Ext path = dotToml ↔ dotToml <:+ path := by
  constructor
  · intro h
    have := Ext_suffix path
    rwa [h] at this
  · rintro ⟨stem, rfl⟩
    exact Ext_append_dotToml stem

theorem sliceTo_append_dotToml (stem : GoString) :
    sliceTo (stem ++ dotToml) (((stem ++ dotToml).length : Int) - 5) = some stem := by
  have h : (((stem ++ dotToml).length : Int) - 5) = (stem.length : Int) := by
    simp [dotToml]
  rw [h]
  simp [sliceTo]

/-! ## Listing -/

theorem listLoop_eq (entries : List DirEntry) :
    listLoop entries = ((themeNames entries).map Msg.theme, true) := by
  induction entries with
  | nil => rfl
  | cons e rest ih =>
    unfold listLoop
    by_cases h : e.IsDir = false ∧ Ext e.Name = dotToml
    · obtain ⟨stem, hs⟩ := (Ext_eq_dotToml_iff e.Name).1 h.2
      have hth : isThemeEntry e = true := by
        simp [isThemeEntry, h.1, (Ext_eq_dotToml_iff e.Name).1 h.2]
      rw [if_pos h, ← hs, sliceTo_append_dotToml, ih]
      simp [themeNames, List.filter_cons, hth, ← hs, dotToml]
    · have hth : isThemeEntry e = false := by
        simp only [isThemeEntry, decide_eq_false_iff_not, ← Ext_eq_dotToml_iff]
        exact h
      rw [if_neg h, ih]
      simp [themeNames, List.filter_cons, hth]

theorem themeNames_append_dotToml (entries : List DirEntry) :
    (themeNames entries).map (fun n => n ++ dotToml)
      = (entries.filter isThemeEntry).map DirEntry.Name := by
  unfold themeNames
  rw [List.map_map]
  apply List.map_congr_left
  intro e he
  have h := (List.mem_filter.1 he).2
  simp only [isThemeEntry, decide_eq_true_eq] at h
  obtain ⟨stem, hs⟩ := h.2
  simp [← hs, dotToml]

/-! ## Inspecting the configuration path -/

theorem themeNameOf_spec (target : GoString) :
    ∃ name, themeNameOf target = some name
      ∧ (dotToml <:+ Base target → name ++ dotToml = Base target)
      ∧ (¬ dotToml <:+ Base target → name = Base target) := by
  by_cases h : Ext (Base target) = dotToml
  · obtain ⟨stem, hs⟩ := (Ext_eq_dotToml_iff _).1 h
    refine ⟨stem, ?_, fun _ => hs, fun hn => absurd ((Ext_eq_dotToml_iff _).1 h) hn⟩
    simp only [themeNameOf, h, if_true]
    rw [← hs, sliceTo_append_dotToml]
  · refine ⟨Base target, ?_, fun hy => absurd ((Ext_eq_dotToml_iff _).2 hy) h, fun _ => rfl⟩
    simp [themeNameOf, h]

/-! ## Path resolution in a grown filesystem -/

theorem walk_keeps (t t2 : List INode) (hk : TableKeeps t t2) (comps : List GoString) :
    ∀ (stack : List Nat), (∀ e, walk t stack comps ≠ .fail e) →
      walk t2 stack comps = walk t stack comps := by
  induction comps with
  | nil => intro stack _; cases stack <;> simp [walk]
  | cons c rest ih =>
    intro stack hne
    cases stack with
    | nil => simp [walk] at hne
    | cons cur up =>
      cases hcur : t[cur]? with
      | none => simp [walk, hcur] at hne
      | some n =>
        obtain ⟨m, hm, hnm⟩ := hk cur n hcur
        cases n with
        | file => simp [walk, hcur] at hne
        | symlink target => simp [walk, hcur] at hne
        | dir es =>
          obtain ⟨es2, rfl, hes⟩ := hnm
          simp only [walk, hcur, hm] at hne ⊢
          by_cases h1 : c = [dot]
          · simp only [h1, if_true] at hne ⊢
            exact ih _ hne
          · simp only [h1, if_false] at hne ⊢
            by_cases h2 : c = [dot, dot]
            · simp only [h2, if_true] at hne ⊢
              exact ih _ hne
            · simp only [h2, if_false] at hne ⊢
              cases hl : lookupEntry c es with
              | none => simp [hl] at hne
              | some i =>
                rw [hes c i hl]
                simp only [hl] at hne ⊢
                cases hi : t[i]? with
                | none => simp [hi] at hne
                | some ni =>
                  obtain ⟨mi, hmi, hnmi⟩ := hk i ni hi
                  cases ni with
                  | file =>
                    have : mi = .file := hnmi
                    subst this
                    simp only [hi, hmi] at hne ⊢
                    exact ih _ hne
                  | symlink target =>
                    have : mi = .symlink target := hnmi
                    subst this
                    simp only [hi, hmi]
                  | dir esi =>
                    obtain ⟨esi2, rfl, _⟩ := hnmi
                    simp only [hi, hmi] at hne ⊢
                    exact ih _ hne

theorem resolve_keeps (t t2 : List INode) (hk : TableKeeps t t2) (fuel : Nat) :
    ∀ (stack : List Nat) (comps : List GoString) (r : List Nat),
      resolve t fuel stack comps = .ok r → resolve t2 fuel stack comps = .ok r := by
  induction fuel with
  | zero =>
    intro stack comps r h
    unfold resolve at h ⊢
    have hne : ∀ e, walk t stack comps ≠ .fail e := by
      intro e he; simp [he] at h
    rw [walk_keeps t t2 hk comps stack hne]
    exact h
  | succ fuel ih =>
    intro stack comps r h
    unfold resolve at h ⊢
    have hne : ∀ e, walk t stack comps ≠ .fail e := by
      intro e he; simp [he] at h
    rw [walk_keeps t t2 hk comps stack hne]
    cases hw : walk t stack comps with
    | done st => simpa [hw] using h
    | fail e => exact absurd hw (hne e)
    | link st target rest =>
      simp only [hw] at h ⊢
      by_cases ht : target = []
      · simp [ht] at h
      · simp only [ht, if_false] at h ⊢
        exact ih _ _ _ h

/-! ## Joining a directory path and a file name -/

theorem splitSep_ne_nil (p : GoString) : splitSep p ≠ [] := by
  cases p with
  | nil => simp [splitSep]
  | cons c cs =>
    unfold splitSep
    split
    · simp
    · split <;> simp

theorem splitSep_of_no_sep (e : GoString) (h : sep ∉ e) : splitSep e = [e] := by
  induction e with
  | nil => rfl
  | cons c cs ih =>
    have hc : c ≠ sep := fun hc => h (by simp [hc])
    have hcs : sep ∉ cs := fun hm => h (List.mem_cons_of_mem _ hm)
    simp [splitSep, hc, ih hcs]

theorem splitSep_append_sep (a b : GoString) :
    splitSep (a ++ sep :: b) = splitSep a ++ splitSep b := by
  induction a with
  | nil => simp [splitSep]
  | cons c cs ih =>
    by_cases hc : c = sep
    · simp [splitSep, hc, ih]
    · simp only [List.cons_append, splitSep, hc, if_false]
      have ih2 : splitSep (cs.append (sep :: b)) = splitSep cs ++ splitSep b := ih
      rw [ih2]
      cases hs : splitSep cs with
      | nil => exact absurd hs (splitSep_ne_nil cs)
      | cons h t => simp

theorem cleanElems_append_sep (r : Bool) (d e : GoString) (he : IsFileName e) :
    cleanElems r (d ++ sep :: e) = cleanElems r d ++ [e] := by
  unfold cleanElems
  rw [splitSep_append_sep, splitSep_of_no_sep e he.2.1, List.foldl_append]
  simp [cleanStep, he.1, he.2.2.1, he.2.2.2]

theorem intercalate_append_single (ys : List GoString) (e : GoString) :
    List.intercalate [sep] (ys ++ [e])
      = if ys = [] then e else List.intercalate [sep] ys ++ sep :: e := by
  induction ys with
  | nil => simp [List.intercalate]
  | cons y ys ih =>
    cases ys with
    | nil => simp [List.intercalate]
    | cons z zs =>
      simp only [List.intercalate, List.cons_append, List.intersperse, List.flatten] at ih ⊢
      simp at ih ⊢
      exact ih

theorem renderPath_append_single (r : Bool) (ys : List GoString) (e : GoString) :
    ∃ pre, IsDirPart pre ∧ renderPath r (ys ++ [e]) = pre ++ e := by
  unfold renderPath
  rw [intercalate_append_single]
  by_cases hy : ys = []
  · cases r
    · exact ⟨[], Or.inl rfl, by simp [hy]⟩
    · exact ⟨[sep], Or.inr ⟨[], rfl⟩, by simp [hy]⟩
  · refine ⟨(if r = true then [sep] else []) ++ List.intercalate [sep] ys ++ [sep],
      Or.inr ⟨_, rfl⟩, ?_⟩
    simp [hy]

theorem Clean_fileName (e : GoString) (he : IsFileName e) : Clean e = e := by
  have hh : e.head? ≠ some sep := by
    intro hh
    cases e with
    | nil => simp at hh
    | cons c cs => exact he.2.1 (by simp at hh; simp [hh])
  have hel : cleanElems false e = [e] := by
    unfold cleanElems
    rw [splitSep_of_no_sep e he.2.1]
    simp [cleanStep, he.1, he.2.2.1, he.2.2.2]
  simp [Clean, he.1, hh, hel, renderPath, List.intercalate]

theorem Clean_append_sep (d e : GoString) (hd : d ≠ []) (he : IsFileName e) :
    Clean (d ++ sep :: e)
      = renderPath (decide (d.head? = some sep))
          (cleanElems (decide (d.head? = some sep)) d ++ [e]) := by
  have hhead : (d ++ sep :: e).head? = d.head? := by
    cases d with
    | nil => exact absurd rfl hd
    | cons c cs => rfl
  have hne : renderPath (decide (d.head? = some sep))
      (cleanElems (decide (d.head? = some sep)) d ++ [e]) ≠ [] := by
    obtain ⟨pre, _, hp⟩ := renderPath_append_single (decide (d.head? = some sep))
      (cleanElems (decide (d.head? = some sep)) d) e
    rw [hp]
    simp [he.1]
  unfold Clean
  simp only [hhead, cleanElems_append_sep _ d e he]
  simp [hd, hne]

theorem Join_dir_fileName (dir e : GoString) (he : IsFileName e) :
    ∃ pre, IsDirPart pre ∧ Join [dir, e] = pre ++ e := by
  by_cases hd : dir = []
  · refine ⟨[], Or.inl rfl, ?_⟩
    simp [Join, hd, he.1, List.intercalate, Clean_fileName e he]
  · have hj : Join [dir, e] = Clean (dir ++ sep :: e) := by
      simp [Join, hd, List.intercalate]
    rw [hj, Clean_append_sep dir e hd he]
    exact renderPath_append_single _ _ _

theorem Base_dirPart_fileName (pre e : GoString) (hp : IsDirPart pre) (he : IsFileName e) :
    Base (pre ++ e) = e := by
  obtain ⟨e2, z, rfl⟩ : ∃ e2 z, e = e2 ++ [z] := by
    rcases List.eq_nil_or_concat e with h | ⟨l, b, h⟩
    · exact absurd h he.1
    · exact ⟨l, b, by simpa using h⟩
  have hz : z ≠ sep := fun hz => he.2.1 (by simp [hz])
  have hall : ∀ a ∈ (e2 ++ [z]).reverse, (decide (a ≠ sep)) = true := by
    intro a ha
    have : a ∈ e2 ++ [z] := List.mem_reverse.1 ha
    simpa using fun h : a = sep => he.2.1 (h ▸ this)
  have hstrip : stripTrailingSeps (pre ++ (e2 ++ [z])) = pre ++ (e2 ++ [z]) := by
    simp [stripTrailingSeps, List.dropWhile, hz]
  have hpre : List.takeWhile (fun c => decide (c ≠ sep)) pre.reverse = [] := by
    rcases hp with h | ⟨r2, h⟩
    · simp [h]
    · simp [h, List.takeWhile]
  have hlast : lastElem (pre ++ (e2 ++ [z])) = e2 ++ [z] := by
    unfold lastElem
    rw [List.reverse_append, List.takeWhile_append_of_pos hall, hpre]
    simp
  unfold Base
  simp only [hstrip, hlast]
  simp

theorem isFileName_append_dotToml (name : GoString) (h : sep ∉ name) :
    IsFileName (name ++ dotToml) := by
  refine ⟨by simp [dotToml], ?_, ?_, ?_⟩
  · intro hm
    rcases List.mem_append.1 hm with h1 | h1
    · exact h h1
    · revert h1; decide
  · intro heq
    have := congrArg List.length heq
    simp [dotToml] at this
  · intro heq
    have := congrArg List.length heq
    simp [dotToml] at this

theorem themeNameOf_Join (dir name : GoString) (h : sep ∉ name) :
    themeNameOf (Join [dir, name ++ dotToml]) = some name := by
  obtain ⟨pre, hp, hj⟩ := Join_dir_fileName dir (name ++ dotToml)
    (isFileName_append_dotToml name h)
  have hb := Base_dirPart_fileName pre (name ++ dotToml) hp (isFileName_append_dotToml name h)
  unfold themeNameOf
  simp only [hj, hb, Ext_append_dotToml, if_true]
  exact sliceTo_append_dotToml name

/-! ## The effect of `Symlink` -/

theorem NodeKeeps_refl (n : INode) : NodeKeeps n n := by
  cases n with
  | file => rfl
  | symlink target => rfl
  | dir es => exact ⟨es, rfl, fun _ _ h => h⟩

theorem lookupEntry_append_some (x : GoString) (es more : List (GoString × Nat)) (i : Nat)
    (h : lookupEntry x es = some i) : lookupEntry x (es ++ more) = some i := by
  induction es with
  | nil => simp [lookupEntry] at h
  | cons e rest ih =>
    obtain ⟨n, j⟩ := e
    by_cases hn : n = x
    · simpa [lookupEntry, hn] using h
    · simp only [lookupEntry, hn, if_false, List.cons_append] at h ⊢
      exact ih h

theorem lookupEntry_append_none (x : GoString) (es more : List (GoString × Nat))
    (h : lookupEntry x es = none) : lookupEntry x (es ++ more) = lookupEntry x more := by
  induction es with
  | nil => rfl
  | cons e rest ih =>
    obtain ⟨n, j⟩ := e
    by_cases hn : n = x
    · simp [lookupEntry, hn] at h
    · simp only [lookupEntry, hn, if_false, List.cons_append] at h ⊢
      exact ih h

theorem tableKeeps_addEntry (t : List INode) (d : Nat) (es : List (GoString × Nat))
    (c : GoString) (n : INode) (hd : t[d]? = some (.dir es)) :
    TableKeeps t (t.set d (.dir (es ++ [(c, t.length)])) ++ [n]) := by
  intro i ni hi
  have hlt : i < t.length := by
    rcases Nat.lt_or_ge i t.length with h | h
    · exact h
    · rw [List.getElem?_eq_none h] at hi; cases hi
  have hlt2 : i < (t.set d (.dir (es ++ [(c, t.length)]))).length := by simpa using hlt
  rw [List.getElem?_append_left hlt2]
  by_cases hid : d = i
  · subst hid
    rw [hd] at hi
    cases hi
    refine ⟨.dir (es ++ [(c, t.length)]), by simp [hlt], ?_⟩
    exact ⟨_, rfl, fun x j hx => lookupEntry_append_some x es _ j hx⟩
  · exact ⟨ni, by simp [List.getElem?_set, hid, hi], NodeKeeps_refl ni⟩

theorem findSlot_ok (fs : FS) (path : GoString) (init : List GoString) (s : Slot)
    (h : findSlot fs path init = .ok s) :
    (∃ up, resolve fs.inodes maxSymlinks (startOf fs path) init = .ok (s.dirIno :: up))
    ∧ fs.inodes[s.dirIno]? = some (.dir s.entries) := by
  unfold findSlot at h
  cases hr : resolve fs.inodes maxSymlinks (startOf fs path) init with
  | error e => simp [hr] at h
  | ok st =>
    cases st with
    | nil => simp [hr] at h
    | cons d up =>
      simp only [hr] at h
      cases hn : fs.inodes[d]? with
      | none => simp [hn] at h
      | some n =>
        cases n with
        | file => simp [hn] at h
        | symlink target => simp [hn] at h
        | dir es =>
          simp only [hn, Except.ok.injEq] at h
          subst h
          exact ⟨⟨up, rfl⟩, hn⟩

theorem findSlot_of_resolve (fs : FS) (path : GoString) (init : List GoString)
    (d : Nat) (up : List Nat) (es : List (GoString × Nat))
    (hr : resolve fs.inodes maxSymlinks (startOf fs path) init = .ok (d :: up))
    (hn : fs.inodes[d]? = some (.dir es)) :
    findSlot fs path init = .ok ⟨d, es⟩ := by
  simp [findSlot, hr, hn]

theorem Symlink_ok (fs fs2 : FS) (oldname newname : GoString)
    (h : Symlink fs oldname newname = .ok fs2) :
    ∃ init c s, finalName newname = some (init, c) ∧ findSlot fs newname init = .ok s
      ∧ lookupEntry c s.entries = none ∧ oldname ≠ []
      ∧ fs2 = addEntry fs s.dirIno s.entries c (.symlink oldname) := by
  unfold Symlink at h
  cases hf : finalName (stripTrailingSeps newname) with
  | none =>
    simp only [hf] at h
    cases hl : lookupFollow fs newname <;> simp [hl] at h
  | some ic =>
    obtain ⟨init, c⟩ := ic
    simp only [hf] at h
    cases hs : findSlot fs (stripTrailingSeps newname) init with
    | error e => simp [hs] at h
    | ok s =>
      simp only [hs] at h
      cases hl : lookupEntry c s.entries with
      | some i => simp [hl] at h
      | none =>
        simp only [hl] at h
        by_cases hp : stripTrailingSeps newname = newname
        · rw [hp] at hf hs
          by_cases ho : oldname = []
          · simp [hp, ho] at h
          · simp only [hp, ne_eq, not_true_eq_false, if_false, ho, Except.ok.injEq] at h
            exact ⟨init, c, s, hf, hs, hl, ho, h.symm⟩
        · simp [hp] at h

theorem lookupNoFollow_addEntry (fs : FS) (path : GoString) (init : List GoString)
    (c : GoString) (s : Slot) (n : INode) (hf : finalName path = some (init, c))
    (hs : findSlot fs path init = .ok s) (hl : lookupEntry c s.entries = none) :
    lookupNoFollow (addEntry fs s.dirIno s.entries c n) path = .ok n := by
  obtain ⟨⟨up, hr⟩, hd⟩ := findSlot_ok fs path init s hs
  have hk := tableKeeps_addEntry fs.inodes s.dirIno s.entries c n hd
  have hlt : s.dirIno < fs.inodes.length := by
    rcases Nat.lt_or_ge s.dirIno fs.inodes.length with h | h
    · exact h
    · rw [List.getElem?_eq_none h] at hd; cases hd
  have hr2 := resolve_keeps _ _ hk maxSymlinks _ _ _ hr
  have hd2 : (addEntry fs s.dirIno s.entries c n).inodes[s.dirIno]?
      = some (.dir (s.entries ++ [(c, fs.inodes.length)])) := by
    simp only [addEntry]
    rw [List.getElem?_append_left (by simpa using hlt)]
    simp [hlt]
  have hs2 : findSlot (addEntry fs s.dirIno s.entries c n) path init
      = .ok ⟨s.dirIno, s.entries ++ [(c, fs.inodes.length)]⟩ :=
    findSlot_of_resolve _ path init s.dirIno up _ hr2 hd2
  have hl2 : lookupEntry c (s.entries ++ [(c, fs.inodes.length)]) = some fs.inodes.length := by
    rw [lookupEntry_append_none c _ _ hl]
    simp [lookupEntry]
  have hn : (addEntry fs s.dirIno s.entries c n).inodes[fs.inodes.length]? = some n := by
    simp only [addEntry]
    rw [List.getElem?_append_right (by simp)]
    simp
  simp [lookupNoFollow, hf, hs2, hl2, hn]

theorem Symlink_lookup (fs fs2 : FS) (oldname newname : GoString)
    (h : Symlink fs oldname newname = .ok fs2) :
    lookupNoFollow fs2 newname = .ok (.symlink oldname) := by
  obtain ⟨init, c, s, hf, hs, hl, _, rfl⟩ := Symlink_ok fs fs2 oldname newname h
  exact lookupNoFollow_addEntry fs newname init c s _ hf hs hl

/-! ## Trailing separators -/

theorem stripTrailingSeps_of_getLast (p : GoString) (h : p.getLast? ≠ some sep) :
    stripTrailingSeps p = p := by
  rcases List.eq_nil_or_concat p with hp | ⟨l, b, hp⟩
  · simp [hp, stripTrailingSeps]
  · have hp2 : p = l ++ [b] := by simpa using hp
    subst hp2
    have hb : b ≠ sep := by
      intro hb
      apply h
      simp [hb]
    simp [stripTrailingSeps, List.dropWhile, hb]

/-! ## Facts about `changeTheme` -/

theorem Lstat_error (fs : FS) (path : GoString) (e : Errno) (h : Lstat fs path = .error e) :
    lookupNoFollow fs path = .error e := by
  unfold Lstat at h
  cases hl : lookupNoFollow fs path with
  | error e2 => simpa [hl] using h
  | ok n => simp [hl] at h

theorem Clean_rooted (p : GoString) (h : p.head? = some sep) : (Clean p).head? = some sep := by
  have hp : p ≠ [] := by intro hp; simp [hp] at h
  simp [Clean, hp, h, renderPath]

theorem Join_rooted (dir e : GoString) (h : dir.head? = some sep) :
    (Join [dir, e]).head? = some sep := by
  have hd : dir ≠ [] := by intro hd; simp [hd] at h
  have hj : Join [dir, e] = Clean (dir ++ sep :: e) := by
    simp [Join, hd, List.intercalate]
  rw [hj]
  apply Clean_rooted
  cases dir with
  | nil => exact absurd rfl hd
  | cons c cs => simpa using h

theorem changeTheme_returned (fs : FS) (starshipDir starshipConfig themeName : GoString)
    (h : (changeTheme fs starshipDir starshipConfig themeName).exit = .returned) :
    ∃ fs1, Symlink fs1 (Join [starshipDir, themeName ++ dotToml]) starshipConfig
      = .ok (changeTheme fs starshipDir starshipConfig themeName).fs := by
  unfold changeTheme at h ⊢
  cases hst : Stat fs (Join [starshipDir, themeName ++ dotToml]) with
  | error e =>
    simp only [hst] at h
    split at h <;> simp at h
  | ok info =>
    simp only [hst] at h ⊢
    by_cases hdir : info.IsDir = true
    · simp [hdir] at h
    · simp only [hdir] at h ⊢
      cases hrm : removeExisting fs starshipConfig with
      | error e => simp [hrm] at h
      | ok fs1 =>
        simp only [hrm] at h ⊢
        cases hsy : Symlink fs1 (Join [starshipDir, themeName ++ dotToml]) starshipConfig with
        | error e => simp [hsy] at h
        | ok fs2 => exact ⟨fs1, by simp [hsy]⟩

/-! ## The components of a cleaned path -/

theorem splitSep_no_sep (p : GoString) : ∀ x ∈ splitSep p, sep ∉ x := by
  induction p with
  | nil => intro x hx; simp [splitSep] at hx; simp [hx]
  | cons c cs ih =>
    intro x hx
    by_cases hc : c = sep
    · simp only [splitSep, hc, if_true, List.mem_cons] at hx
      rcases hx with rfl | hx
      · simp
      · exact ih x hx
    · simp only [splitSep, hc, if_false] at hx
      cases hs : splitSep cs with
      | nil => exact absurd hs (splitSep_ne_nil cs)
      | cons h t =>
        simp only [hs, List.mem_cons] at hx
        rcases hx with rfl | hx
        · intro hm
          rcases List.mem_cons.1 hm with h1 | h1
          · exact hc h1.symm
          · exact ih h (by simp [hs]) h1
        · exact ih x (by simp [hs, hx])

theorem cleanStep_elems (r : Bool) (st : List GoString) (c : GoString) (hc : sep ∉ c)
    (hst : ∀ x ∈ st, IsElem x) : ∀ x ∈ cleanStep r st c, IsElem x := by
  unfold cleanStep
  split
  · exact hst
  · rename_i hne
    have hc0 : c ≠ [] := fun h => hne (Or.inl h)
    split
    · split
      · split
        · simp
        · intro x hx
          simp only [List.mem_singleton] at hx
          subst hx
          exact ⟨hc0, hc⟩
      · rename_i top below
        split
        · intro x hx
          rcases List.mem_cons.1 hx with rfl | hx
          · exact ⟨hc0, hc⟩
          · exact hst x hx
        · intro x hx
          exact hst x (List.mem_cons_of_mem _ hx)
    · intro x hx
      rcases List.mem_cons.1 hx with rfl | hx
      · exact ⟨hc0, hc⟩
      · exact hst x hx

theorem foldl_cleanStep_elems (r : Bool) (l : List GoString) (hl : ∀ c ∈ l, sep ∉ c) :
    ∀ (st : List GoString), (∀ x ∈ st, IsElem x) →
      ∀ x ∈ l.foldl (cleanStep r) st, IsElem x := by
  induction l with
  | nil => intro st hst; simpa using hst
  | cons c cs ih =>
    intro st hst
    simp only [List.foldl_cons]
    exact ih (fun c2 h2 => hl c2 (List.mem_cons_of_mem _ h2)) _
      (cleanStep_elems r st c (hl c (List.mem_cons_self _ _)) hst)

theorem cleanElems_elems (r : Bool) (p : GoString) : ∀ x ∈ cleanElems r p, IsElem x := by
  intro x hx
  unfold cleanElems at hx
  exact foldl_cleanStep_elems r _ (splitSep_no_sep p) [] (by simp) x (List.mem_reverse.1 hx)

theorem splitSep_intercalate (es : List GoString) (hne : es ≠ []) (hes : ∀ x ∈ es, sep ∉ x) :
    splitSep (List.intercalate [sep] es) = es := by
  induction es with
  | nil => exact absurd rfl hne
  | cons a rest ih =>
    cases rest with
    | nil =>
      simp only [List.intercalate, List.intersperse, List.flatten, List.append_nil]
      exact splitSep_of_no_sep a (hes a (by simp))
    | cons b more =>
      have h1 : List.intercalate [sep] (a :: b :: more)
          = a ++ sep :: List.intercalate [sep] (b :: more) := by
        simp [List.intercalate]
      rw [h1, splitSep_append_sep, splitSep_of_no_sep a (hes a (by simp)),
        ih (by simp) (fun x hx => hes x (List.mem_cons_of_mem _ hx))]
      rfl

theorem getLast_append_elem (pre e : GoString) (he : IsElem e) :
    (pre ++ e).getLast? ≠ some sep := by
  rcases List.eq_nil_or_concat e with h | ⟨l, b, h⟩
  · exact absurd h he.1
  · have h2 : e = l ++ [b] := by simpa using h
    subst h2
    have hb : b ≠ sep := fun hb => he.2 (by simp [hb])
    rw [← List.append_assoc]
    simp only [List.getLast?_append, List.getLast?_singleton]
    simpa using fun h => hb h

theorem pathComps_renderPath (r : Bool) (es : List GoString) (hes : ∀ x ∈ es, IsElem x) :
    pathComps (renderPath r es) = es := by
  have hdef : ∀ p, pathComps p
      = if (splitSep p).filter (fun c => c ≠ []) ≠ [] ∧ p.getLast? = some sep
        then (splitSep p).filter (fun c => c ≠ []) ++ [[dot]]
        else (splitSep p).filter (fun c => c ≠ []) := fun _ => rfl
  rcases List.eq_nil_or_concat es with h | ⟨l, b, h⟩
  · subst h
    cases r <;> decide
  · have h2 : es = l ++ [b] := by simpa using h
    have hne : es ≠ [] := by simp [h2]
    have hb : IsElem b := hes b (by simp [h2])
    have hlast : (renderPath r es).getLast? ≠ some sep := by
      obtain ⟨pre, _, hp⟩ := renderPath_append_single r l b
      rw [h2, hp]
      exact getLast_append_elem pre b hb
    have hsplit : (splitSep (renderPath r es)).filter (fun c => c ≠ []) = es := by
      have hs := splitSep_intercalate es hne (fun x hx => (hes x hx).2)
      have hf : es.filter (fun c => c ≠ []) = es := by
        apply List.filter_eq_self.2
        intro x hx
        simpa using (hes x hx).1
      cases r
      · simp only [renderPath, Bool.false_eq_true, if_false, List.nil_append, hs]
        exact hf
      · have h3 : renderPath true es = [] ++ sep :: List.intercalate [sep] es := by
          simp [renderPath]
        rw [h3, splitSep_append_sep, hs]
        simp only [splitSep, List.singleton_append, List.filter_cons]
        simpa using hf
    rw [hdef, hsplit]
    simp [hlast]

/-! ## Resolving a joined path -/

theorem walk_nil (t : List INode) (stack : List Nat) : walk t stack [] = .done stack := by
  cases stack <;> simp [walk]

theorem walk_append (t : List INode) (xs ys : List GoString) :
    ∀ (stack : List Nat), walk t stack (xs ++ ys)
      = match walk t stack xs with
        | .done st => walk t st ys
        | .link st target rest => .link st target (rest ++ ys)
        | .fail e => .fail e := by
  induction xs with
  | nil => intro stack; simp [walk_nil]
  | cons x rest ih =>
    intro stack
    cases stack with
    | nil => simp [walk]
    | cons cur up =>
      cases hcur : t[cur]? with
      | none => simp [walk, hcur]
      | some n =>
        cases n with
        | file => simp [walk, hcur]
        | symlink target => simp [walk, hcur]
        | dir es =>
          simp only [List.cons_append, walk, hcur]
          by_cases h1 : x = [dot]
          · simp only [h1, if_true]; exact ih _
          · by_cases h2 : x = [dot, dot]
            · simp only [h1, h2, if_true, if_false]; exact ih _
            · simp only [h1, h2, if_false]
              cases hl : lookupEntry x es with
              | none => simp
              | some i =>
                simp only []
                cases hi : t[i]? with
                | none => simp
                | some ni =>
                  cases ni with
                  | file => simp only []; exact ih _
                  | symlink target => simp
                  | dir ei => simp only []; exact ih _

theorem resolve_append (t : List INode) (ys : List GoString) (st2 : List Nat) (fuel : Nat) :
    ∀ (stack : List Nat) (xs : List GoString) (st1 : List Nat),
      resolve t fuel stack xs = .ok st1 → walk t st1 ys = .done st2 →
      resolve t fuel stack (xs ++ ys) = .ok st2 := by
  induction fuel with
  | zero =>
    intro stack xs st1 hr hw
    unfold resolve at hr ⊢
    rw [walk_append]
    cases hx : walk t stack xs with
    | done st =>
      simp only [hx, Except.ok.injEq] at hr
      subst hr
      simp [hw]
    | fail e => simp [hx] at hr
    | link st target rest => simp [hx] at hr
  | succ fuel ih =>
    intro stack xs st1 hr hw
    unfold resolve at hr ⊢
    rw [walk_append]
    cases hx : walk t stack xs with
    | done st =>
      simp only [hx, Except.ok.injEq] at hr
      subst hr
      simp [hw]
    | fail e => simp [hx] at hr
    | link st target rest =>
      simp only [hx] at hr ⊢
      by_cases ht : target = []
      · simp [ht] at hr
      · simp only [ht, if_false] at hr ⊢
        rw [← List.append_assoc]
        exact ih _ _ _ hr hw

theorem walk_entry (t : List INode) (h : Nat) (up : List Nat) (es : List (GoString × Nat))
    (e : GoString) (i : Nat) (n : INode) (hd : t[h]? = some (.dir es)) (he : IsFileName e)
    (hl : lookupEntry e es = some i) (hi : t[i]? = some n) (hn : n.kind ≠ FileKind.symlink) :
    walk t (h :: up) [e] = .done (i :: h :: up) := by
  simp only [walk, hd, he.2.2.1, he.2.2.2, if_false, hl, hi]
  cases n with
  | file => simp [walk_nil]
  | symlink target => simp [INode.kind] at hn
  | dir ei => simp [walk_nil]

theorem resolve_dot (t : List INode) (fuel : Nat) (stack st : List Nat)
    (h : resolve t fuel stack [[dot]] = .ok st) : st = stack := by
  cases stack with
  | nil => cases fuel <;> simp [resolve, walk] at h
  | cons cur up =>
    cases hcur : t[cur]? with
    | none => cases fuel <;> simp [resolve, walk, hcur] at h
    | some n =>
      cases n with
      | file => cases fuel <;> simp [resolve, walk, hcur] at h
      | symlink target => cases fuel <;> simp [resolve, walk, hcur] at h
      | dir es => cases fuel <;> simp [resolve, walk, hcur] at h <;> exact h.symm

theorem resolve_nil (t : List INode) (fuel : Nat) (stack : List Nat) :
    resolve t fuel stack [] = .ok stack := by
  cases fuel <;> simp [resolve, walk_nil]

theorem lookupFollow_ok (fs : FS) (path : GoString) (n : INode)
    (h : lookupFollow fs path = .ok n) :
    path ≠ [] ∧ ∃ i up, resolve fs.inodes maxSymlinks (startOf fs path) (pathComps path)
        = .ok (i :: up) ∧ fs.inodes[i]? = some n := by
  unfold lookupFollow at h
  by_cases hp : path = []
  · simp [hp] at h
  · simp only [hp, if_false] at h
    refine ⟨hp, ?_⟩
    cases hr : resolve fs.inodes maxSymlinks (startOf fs path) (pathComps path) with
    | error e => simp [hr] at h
    | ok st =>
      cases st with
      | nil => simp [hr] at h
      | cons i up =>
        simp only [hr] at h
        cases hi : fs.inodes[i]? with
        | none => simp [hi] at h
        | some m =>
          simp only [hi, Except.ok.injEq] at h
          subst h
          exact ⟨i, up, rfl, hi⟩

theorem lookupFollow_of_resolve (fs : FS) (path : GoString) (n : INode) (i : Nat)
    (up : List Nat) (hp : path ≠ [])
    (hr : resolve fs.inodes maxSymlinks (startOf fs path) (pathComps path) = .ok (i :: up))
    (hi : fs.inodes[i]? = some n) : lookupFollow fs path = .ok n := by
  simp [lookupFollow, hp, hr, hi]

theorem head_renderPath_false (es : List GoString) (hes : ∀ x ∈ es, IsElem x) :
    (renderPath false es).head? ≠ some sep := by
  cases es with
  | nil => simp [renderPath, List.intercalate]
  | cons a rest =>
    have ha := hes a (by simp)
    cases a with
    | nil => exact absurd rfl ha.1
    | cons c cs =>
      have hc : c ≠ sep := fun hc => ha.2 (by simp [hc])
      cases rest with
      | nil => simpa [renderPath, List.intercalate] using hc
      | cons b more => simpa [renderPath, List.intercalate] using hc

theorem isElem_of_isFileName (e : GoString) (he : IsFileName e) : IsElem e := ⟨he.1, he.2.1⟩

theorem resolve_Join (fs : FS) (dir e : GoString) (es : List (GoString × Nat)) (i : Nat)
    (n : INode) (hClean : Clean dir = dir) (he : IsFileName e)
    (hDir : lookupFollow fs dir = .ok (.dir es))
    (hl : lookupEntry e es = some i) (hi : fs.inodes[i]? = some n)
    (hn : n.kind ≠ FileKind.symlink) :
    ∃ up, resolve fs.inodes maxSymlinks (startOf fs (Join [dir, e])) (pathComps (Join [dir, e]))
      = .ok (i :: up) := by
  obtain ⟨hd, h, up, hr, hh⟩ := lookupFollow_ok fs dir _ hDir
  have hE := cleanElems_elems (decide (dir.head? = some sep)) dir
  have hE2 : ∀ x ∈ cleanElems (decide (dir.head? = some sep)) dir ++ [e], IsElem x := by
    intro x hx
    rcases List.mem_append.1 hx with h1 | h1
    · exact hE x h1
    · simp only [List.mem_singleton] at h1
      subst h1
      exact isElem_of_isFileName _ he
  have hj : Join [dir, e] = renderPath (decide (dir.head? = some sep))
      (cleanElems (decide (dir.head? = some sep)) dir ++ [e]) := by
    have : Join [dir, e] = Clean (dir ++ sep :: e) := by simp [Join, hd, List.intercalate]
    rw [this, Clean_append_sep dir e hd he]
  have hcomps : pathComps (Join [dir, e])
      = cleanElems (decide (dir.head? = some sep)) dir ++ [e] := by
    rw [hj]
    exact pathComps_renderPath _ _ hE2
  have hstart : startOf fs (Join [dir, e]) = startOf fs dir := by
    unfold startOf
    by_cases hr : dir.head? = some sep
    · simp [hr, Join_rooted dir e hr]
    · have : (Join [dir, e]).head? ≠ some sep := by
        rw [hj]
        simp only [hr, decide_False]
        exact head_renderPath_false _ (by simpa [hr] using hE2)
      simp [hr, this]
  have hres : resolve fs.inodes maxSymlinks (startOf fs dir)
      (cleanElems (decide (dir.head? = some sep)) dir) = .ok (h :: up) := by
    by_cases hout : renderPath (decide (dir.head? = some sep))
        (cleanElems (decide (dir.head? = some sep)) dir) = []
    · have hdot : dir = [dot] := by
        have := hClean
        unfold Clean at this
        simp only [hd, if_false, hout, if_true] at this
        exact this.symm
      subst hdot
      have hEnil : cleanElems (decide (([dot] : GoString).head? = some sep)) [dot] = [] := by
        decide
      rw [hEnil]
      have hpc : pathComps ([dot] : GoString) = [[dot]] := by decide
      rw [hpc] at hr
      have := resolve_dot _ _ _ _ hr
      rw [resolve_nil, this]
    · have hdir : dir = renderPath (decide (dir.head? = some sep))
          (cleanElems (decide (dir.head? = some sep)) dir) := by
        have := hClean
        unfold Clean at this
        simp only [hd, if_false, hout] at this
        exact this.symm
      have hpc : pathComps dir = cleanElems (decide (dir.head? = some sep)) dir := by
        conv_lhs => rw [hdir]
        exact pathComps_renderPath _ _ hE
      rw [← hpc]
      exact hr
  refine ⟨h :: up, ?_⟩
  rw [hcomps, hstart]
  exact resolve_append _ _ _ _ _ _ _ hres (walk_entry _ h up es e i n hh he hl hi hn)

/-! ## Listing and activation agree -/

theorem entryKind_regular (fs : FS) (i : Nat) (h : entryKind fs i = some FileKind.regular) :
    fs.inodes[i]? = some .file := by
  unfold entryKind at h
  cases hi : fs.inodes[i]? with
  | none => simp [hi] at h
  | some n => cases n <;> simp_all [INode.kind]

theorem entryKind_directory (fs : FS) (i : Nat) (h : entryKind fs i = some FileKind.directory) :
    ∃ sub, fs.inodes[i]? = some (.dir sub) := by
  unfold entryKind at h
  cases hi : fs.inodes[i]? with
  | none => simp [hi] at h
  | some n => cases n <;> simp_all [INode.kind]

theorem lookupEntry_of_mem (es : List (GoString × Nat)) (nm : GoString) (i : Nat)
    (hmem : (nm, i) ∈ es) (hnd : (es.map Prod.fst).Nodup) : lookupEntry nm es = some i := by
  induction es with
  | nil => simp at hmem
  | cons e rest ih =>
    obtain ⟨n, j⟩ := e
    simp only [List.map_cons, List.nodup_cons] at hnd
    rcases List.mem_cons.1 hmem with h | h
    · cases h
      simp [lookupEntry]
    · have hne : n ≠ nm := by
        intro heq
        apply hnd.1
        rw [heq]
        exact List.mem_map.2 ⟨(nm, i), h, rfl⟩
      simp only [lookupEntry, hne, if_false]
      exact ih h hnd.2

theorem ReadDir_of_dir (fs : FS) (path : GoString) (es : List (GoString × Nat))
    (h : lookupFollow fs path = .ok (.dir es)) :
    ReadDir fs path
      = .ok ((es.map (toDirEntry fs.inodes)).insertionSort
          (fun a b => bytesLe a.Name b.Name = true)) := by
  simp [ReadDir, h]

theorem mem_themeNames (entries : List DirEntry) (n : GoString) (h : n ∈ themeNames entries) :
    (⟨n ++ dotToml, false⟩ : DirEntry) ∈ entries := by
  unfold themeNames at h
  obtain ⟨entry, hmem, hn⟩ := List.mem_map.1 h
  obtain ⟨hin, hth⟩ := List.mem_filter.1 hmem
  simp only [isThemeEntry, decide_eq_true_eq] at hth
  obtain ⟨stem, hs⟩ := hth.2
  have : n = stem := by
    rw [← hn, ← hs]
    simp [dotToml]
  subst this
  obtain ⟨nm, isd⟩ := entry
  simp only at hs hth
  rw [hs, ← hth.1]
  exact hin

theorem changeTheme_out_of_regular (fs : FS) (starshipDir starshipConfig themeName : GoString)
    (h : Stat fs (Join [starshipDir, themeName ++ dotToml]) = .ok ⟨FileKind.regular⟩) :
    (changeTheme fs starshipDir starshipConfig themeName).out ≠ [Msg.noSuchFile themeName]
    ∧ (changeTheme fs starshipDir starshipConfig themeName).out
        ≠ [Msg.isDirectory themeName] := by
  unfold changeTheme
  simp only [h, FileInfo.IsDir]
  cases removeExisting fs starshipConfig with
  | error e => simp
  | ok fs1 =>
    cases hsy : Symlink fs1 (Join [starshipDir, themeName ++ dotToml]) starshipConfig with
    | error e => simp [hsy]
    | ok fs2 => simp [hsy]

/-! ## Cleaning a cleaned path -/

theorem cleanStep_isCleanStack (r : Bool) (st : List GoString) (c : GoString) (hc : sep ∉ c)
    (hst : IsCleanStack r st) : IsCleanStack r (cleanStep r st c) := by
  obtain ⟨k, names, rfl, hn, hr⟩ := hst
  unfold cleanStep
  by_cases h1 : c = [] ∨ c = [dot]
  · simp only [h1, if_true]
    exact ⟨k, names, rfl, hn, hr⟩
  · simp only [h1, if_false]
    by_cases h2 : c = [dot, dot]
    · simp only [h2, if_true]
      cases names with
      | nil =>
        cases k with
        | zero =>
          simp only [List.replicate, List.append_nil]
          cases r
          · exact ⟨1, [], rfl, by simp, by simp⟩
          · exact ⟨0, [], rfl, by simp, by simp⟩
        | succ k =>
          simp only [List.nil_append, List.replicate_succ, if_true]
          refine ⟨k + 2, [], by simp [List.replicate_succ], by simp, ?_⟩
          intro hrt
          have := hr hrt
          omega
      | cons top below =>
        have htop : top ≠ [dot, dot] := (hn top (by simp)).2.2.2
        simp only [List.cons_append, htop, if_false]
        exact ⟨k, below, rfl, fun x hx => hn x (List.mem_cons_of_mem _ hx), hr⟩
    · simp only [h2, if_false]
      have hc1 : c ≠ [] := fun h => h1 (Or.inl h)
      have hc2 : c ≠ [dot] := fun h => h1 (Or.inr h)
      refine ⟨k, c :: names, rfl, ?_, hr⟩
      intro x hx
      rcases List.mem_cons.1 hx with rfl | hx
      · exact ⟨hc1, hc, hc2, h2⟩
      · exact hn x hx

theorem foldl_cleanStep_isCleanStack (r : Bool) (l : List GoString) (hl : ∀ c ∈ l, sep ∉ c) :
    ∀ st, IsCleanStack r st → IsCleanStack r (l.foldl (cleanStep r) st) := by
  induction l with
  | nil => intro st h; exact h
  | cons c cs ih =>
    intro st h
    exact ih (fun c2 h2 => hl c2 (List.mem_cons_of_mem _ h2)) _
      (cleanStep_isCleanStack r st c (hl c (List.mem_cons_self _ _)) h)

theorem foldl_cleanStep_names (r : Bool) (names : List GoString)
    (hn : ∀ x ∈ names, IsFileName x) :
    ∀ st, names.foldl (cleanStep r) st = names.reverse ++ st := by
  induction names with
  | nil => intro st; simp
  | cons c cs ih =>
    intro st
    have hc := hn c (List.mem_cons_self _ _)
    have hstep : cleanStep r st c = c :: st := by
      simp [cleanStep, hc.1, hc.2.2.1, hc.2.2.2]
    simp only [List.foldl_cons, hstep, ih (fun x hx => hn x (List.mem_cons_of_mem _ hx))]
    simp

theorem foldl_cleanStep_dotdots (k : Nat) :
    ∀ j, (List.replicate k [dot, dot]).foldl (cleanStep false) (List.replicate j [dot, dot])
      = List.replicate (j + k) [dot, dot] := by
  induction k with
  | zero => intro j; simp
  | succ k ih =>
    intro j
    have hstep : cleanStep false (List.replicate j [dot, dot]) [dot, dot]
        = List.replicate (j + 1) [dot, dot] := by
      cases j with
      | zero => simp [cleanStep, dot]
      | succ j => simp [cleanStep, dot, List.replicate_succ]
    have hrep : List.replicate (k + 1) [dot, dot] = [dot, dot] :: List.replicate k [dot, dot] :=
      rfl
    rw [hrep, List.foldl_cons, hstep, ih]
    congr 1
    omega

theorem foldl_cleanStep_reverse (r : Bool) (st : List GoString) (h : IsCleanStack r st) :
    st.reverse.foldl (cleanStep r) [] = st := by
  obtain ⟨k, names, rfl, hn, hr⟩ := h
  rw [List.reverse_append, List.foldl_append, List.reverse_replicate]
  have hk : (List.replicate k [dot, dot]).foldl (cleanStep r) [] = List.replicate k [dot, dot] := by
    cases r
    · have := foldl_cleanStep_dotdots k 0
      simpa using this
    · have := hr rfl
      subst this
      simp
  rw [hk, foldl_cleanStep_names r names.reverse (fun x hx => hn x (List.mem_reverse.1 hx))]
  simp

theorem cleanElems_renderPath (r : Bool) (p : GoString)
    (hne : renderPath r (cleanElems r p) ≠ []) :
    cleanElems r (renderPath r (cleanElems r p)) = cleanElems r p := by
  have hst : IsCleanStack r ((splitSep p).foldl (cleanStep r) []) :=
    foldl_cleanStep_isCleanStack r _ (splitSep_no_sep p) [] ⟨0, [], rfl, by simp, by simp⟩
  have hE := cleanElems_elems r p
  by_cases hnil : cleanElems r p = []
  · rw [hnil] at hne ⊢
    cases r
    · simp [renderPath, List.intercalate] at hne
    · decide
  · have hs := splitSep_intercalate (cleanElems r p) hnil (fun x hx => (hE x hx).2)
    have hfold : (cleanElems r p).foldl (cleanStep r) [] = (cleanElems r p).reverse := by
      have := foldl_cleanStep_reverse r _ hst
      unfold cleanElems
      rw [this]
      simp
    cases r
    · unfold cleanElems at hs hfold ⊢
      simp only [renderPath, Bool.false_eq_true, if_false, List.nil_append, hs, hfold]
      simp
    · have h3 : renderPath true (cleanElems true p)
          = [] ++ sep :: List.intercalate [sep] (cleanElems true p) := by
        simp [renderPath]
      have hdef : ∀ q, cleanElems true q = ((splitSep q).foldl (cleanStep true) []).reverse :=
        fun _ => rfl
      have h4 : cleanElems true (renderPath true (cleanElems true p))
          = ((cleanElems true p).foldl (cleanStep true) []).reverse := by
        rw [hdef (renderPath true (cleanElems true p)), h3, splitSep_append_sep, hs]
        simp [splitSep, cleanStep]
      rw [h4, hfold]
      simp

theorem Clean_idempotent (p : GoString) : Clean (Clean p) = Clean p := by
  by_cases hp : p = []
  · subst hp; decide
  · by_cases hout : renderPath (decide (p.head? = some sep))
        (cleanElems (decide (p.head? = some sep)) p) = []
    · have : Clean p = [dot] := by simp [Clean, hp, hout]
      rw [this]; decide
    · have hc : Clean p = renderPath (decide (p.head? = some sep))
          (cleanElems (decide (p.head? = some sep)) p) := by simp [Clean, hp, hout]
      have hhead : (Clean p).head? = some sep ↔ p.head? = some sep := by
        constructor
        · intro h
          by_contra hn
          rw [hc] at h
          simp only [hn, decide_False] at h
          exact head_renderPath_false _ (by simpa [hn] using cleanElems_elems _ p) h
        · exact Clean_rooted p
      have hdec : decide ((Clean p).head? = some sep) = decide (p.head? = some sep) := by
        simp [hhead]
      have hne : Clean p ≠ [] := by rw [hc]; exact hout
      have hdef : ∀ q, Clean q
          = if q = [] then [dot]
            else if renderPath (decide (q.head? = some sep))
                (cleanElems (decide (q.head? = some sep)) q) = [] then [dot]
            else renderPath (decide (q.head? = some sep))
                (cleanElems (decide (q.head? = some sep)) q) := fun _ => rfl
      rw [hdef (Clean p)]
      simp only [hne, if_false, hdec]
      rw [hc, cleanElems_renderPath _ p hout]
      simp [hout]

theorem Join_cleaned (elems : List GoString) (h : Join elems ≠ []) :
    Clean (Join elems) = Join elems := by
  induction elems with
  | nil => simp [Join] at h
  | cons e rest ih =>
    by_cases he : e = []
    · simp only [Join, he, if_true] at h ⊢
      exact ih h
    · simp only [Join, he, if_false]
      exact Clean_idempotent _

theorem Clean_ne_nil (p : GoString) : Clean p ≠ [] := by
  unfold Clean
  by_cases hp : p = []
  · simp [hp]
  · simp only [hp, if_false]
    split
    · simp
    · assumption

theorem starshipDir_cleaned (home : GoString) (sub : List GoString) (h : home ≠ []) :
    Clean (Join (home :: sub)) = Join (home :: sub) := by
  apply Join_cleaned
  simp only [Join, h, if_false]
  exact Clean_ne_nil _

/-! ## A missing entry is missing for `Stat` too -/

theorem resolve_append_error (t : List INode) (ys : List GoString) (e : Errno) (fuel : Nat) :
    ∀ (stack : List Nat) (xs : List GoString),
      resolve t fuel stack xs = .error e → resolve t fuel stack (xs ++ ys) = .error e := by
  induction fuel with
  | zero =>
    intro stack xs hr
    unfold resolve at hr ⊢
    rw [walk_append]
    cases hx : walk t stack xs with
    | done st => simp [hx] at hr
    | fail e2 => simpa [hx] using hr
    | link st target rest => simpa [hx] using hr
  | succ fuel ih =>
    intro stack xs hr
    unfold resolve at hr ⊢
    rw [walk_append]
    cases hx : walk t stack xs with
    | done st => simp [hx] at hr
    | fail e2 => simpa [hx] using hr
    | link st target rest =>
      simp only [hx] at hr ⊢
      by_cases ht : target = []
      · simpa [ht] using hr
      · simp only [ht, if_false] at hr ⊢
        rw [← List.append_assoc]
        exact ih _ _ hr

theorem resolve_append_fail (t : List INode) (ys : List GoString) (e : Errno) (fuel : Nat) :
    ∀ (stack : List Nat) (xs : List GoString) (st1 : List Nat),
      resolve t fuel stack xs = .ok st1 → walk t st1 ys = .fail e →
      resolve t fuel stack (xs ++ ys) = .error e := by
  induction fuel with
  | zero =>
    intro stack xs st1 hr hw
    unfold resolve at hr ⊢
    rw [walk_append]
    cases hx : walk t stack xs with
    | done st =>
      simp only [hx, Except.ok.injEq] at hr
      subst hr
      simp [hw]
    | fail e2 => simp [hx] at hr
    | link st target rest => simp [hx] at hr
  | succ fuel ih =>
    intro stack xs st1 hr hw
    unfold resolve at hr ⊢
    rw [walk_append]
    cases hx : walk t stack xs with
    | done st =>
      simp only [hx, Except.ok.injEq] at hr
      subst hr
      simp [hw]
    | fail e2 => simp [hx] at hr
    | link st target rest =>
      simp only [hx] at hr ⊢
      by_cases ht : target = []
      · simp [ht] at hr
      · simp only [ht, if_false] at hr ⊢
        rw [← List.append_assoc]
        exact ih _ _ _ hr hw

theorem pathComps_of_finalName (p : GoString) (init : List GoString) (c : GoString)
    (h : finalName p = some (init, c)) :
    pathComps p = init ++ [c] ∧ c ≠ [dot] ∧ c ≠ [dot, dot] ∧ p ≠ [] := by
  unfold finalName at h
  cases hl : (pathComps p).getLast? with
  | none => simp [hl] at h
  | some x =>
    simp only [hl] at h
    by_cases hx : x = [dot] ∨ x = [dot, dot]
    · simp [hx] at h
    · simp only [hx, if_false, Option.some.injEq, Prod.mk.injEq] at h
      obtain ⟨h1, h2⟩ := h
      subst h1 h2
      refine ⟨(List.dropLast_append_getLast? x hl).symm, fun h => hx (Or.inl h),
        fun h => hx (Or.inr h), ?_⟩
      intro hp
      subst hp
      simp [pathComps, splitSep] at hl

theorem lookupFollow_of_lookupNoFollow_enoent (fs : FS) (path : GoString)
    (h : lookupNoFollow fs path = .error .ENOENT) : lookupFollow fs path = .error .ENOENT := by
  unfold lookupNoFollow at h
  cases hf : finalName path with
  | none => simpa [hf] using h
  | some ic =>
    obtain ⟨init, c⟩ := ic
    simp only [hf] at h
    obtain ⟨hpc, hc1, hc2, hp⟩ := pathComps_of_finalName path init c hf
    unfold lookupFollow
    simp only [hp, if_false, hpc]
    unfold findSlot at h
    cases hr : resolve fs.inodes maxSymlinks (startOf fs path) init with
    | error e =>
      simp only [hr] at h
      cases h
      rw [resolve_append_error _ _ _ _ _ _ hr]
    | ok st =>
      cases st with
      | nil =>
        rw [resolve_append_fail _ [c] .ENOENT _ _ _ _ hr (by simp [walk])]
      | cons d up =>
        simp only [hr] at h
        cases hd : fs.inodes[d]? with
        | none => simp [hd] at h
        | some n =>
          cases n with
          | file => simp [hd] at h
          | symlink target => simp [hd] at h
          | dir es =>
            simp only [hd] at h
            cases hl : lookupEntry c es with
            | none =>
              rw [resolve_append_fail _ [c] .ENOENT _ _ _ _ hr
                (by simp [walk, hd, hc1, hc2, hl])]
            | some i =>
              simp only [hl] at h
              cases hi : fs.inodes[i]? <;> simp [hi] at h

theorem Stat_of_Lstat_enoent (fs : FS) (path : GoString)
    (h : Lstat fs path = .error .ENOENT) : Stat fs path = .error .ENOENT := by
  have := lookupFollow_of_lookupNoFollow_enoent fs path (Lstat_error fs path _ h)
  simp [Stat, this]

theorem main_get (prog home : GoString) (fs : FS) (h : home ≠ []) :
    main [prog, ascii "get"] home fs
      = getCurrentTheme fs (Join [home, ascii ".config", ascii "starship.toml"]) := by
  have h1 : ascii "get" ≠ ascii "list" := by decide
  have h2 : ascii "get" ≠ ascii "change" := by decide
  simp [main, h, h1, h2]

/-! ## The final component of a path -/

theorem splitSep_replicate_sep (k : Nat) :
    splitSep (List.replicate k sep) = List.replicate (k + 1) [] := by
  induction k with
  | zero => rfl
  | succ k ih =>
    have h : List.replicate (k + 1) sep = sep :: List.replicate k sep := rfl
    rw [h]
    simp only [splitSep, if_true, ih]
    rfl

theorem splitSep_elem_seps (e : GoString) (he : sep ∉ e) (k : Nat) :
    splitSep (e ++ List.replicate k sep) = e :: List.replicate k [] := by
  cases k with
  | zero => simpa using splitSep_of_no_sep e he
  | succ k =>
    have h : List.replicate (k + 1) sep = sep :: List.replicate k sep := rfl
    rw [h, splitSep_append_sep, splitSep_of_no_sep e he, splitSep_replicate_sep]
    rfl

theorem filter_replicate_nil (k : Nat) :
    (List.replicate k ([] : GoString)).filter (fun c => c ≠ []) = [] := by
  induction k with
  | zero => rfl
  | succ k ih =>
    have h : List.replicate (k + 1) ([] : GoString) = [] :: List.replicate k [] := rfl
    rw [h, List.filter_cons]
    simp [ih]

theorem lastComponent_seps (k : Nat) : lastComponent (List.replicate k sep) = none := by
  unfold lastComponent
  rw [splitSep_replicate_sep, filter_replicate_nil]
  rfl

theorem lastComponent_decomposed (pre e : GoString) (k : Nat) (hp : IsDirPart pre)
    (he : IsElem e) : lastComponent (pre ++ e ++ List.replicate k sep) = some e := by
  have htail : (splitSep (e ++ List.replicate k sep)).filter (fun c => c ≠ []) = [e] := by
    rw [splitSep_elem_seps e he.2 k, List.filter_cons]
    have := filter_replicate_nil k
    simp [he.1, this]
  unfold lastComponent
  rcases hp with h | ⟨r2, h⟩
  · subst h
    rw [List.nil_append, htail]
    rfl
  · subst h
    have hre : r2 ++ [sep] ++ e ++ List.replicate k sep
        = r2 ++ sep :: (e ++ List.replicate k sep) := by simp
    rw [hre, splitSep_append_sep, List.filter_append, htail]
    simp

theorem dropWhile_replicate_append (k : Nat) (l : GoString) :
    List.dropWhile (fun c => decide (c = sep)) (List.replicate k sep ++ l)
      = List.dropWhile (fun c => decide (c = sep)) l := by
  induction k with
  | zero => rfl
  | succ k ih =>
    have h : List.replicate (k + 1) sep = sep :: List.replicate k sep := rfl
    rw [h, List.cons_append, List.dropWhile_cons]
    simp [ih]

theorem stripTrailingSeps_append_seps (x : GoString) (k : Nat) (hx : x.getLast? ≠ some sep) :
    stripTrailingSeps (x ++ List.replicate k sep) = x := by
  have h := stripTrailingSeps_of_getLast x hx
  unfold stripTrailingSeps at h ⊢
  rw [List.reverse_append, List.reverse_replicate, dropWhile_replicate_append]
  exact h

theorem Base_decomposed (pre e : GoString) (k : Nat) (hp : IsDirPart pre) (he : IsElem e) :
    Base (pre ++ e ++ List.replicate k sep) = e := by
  have hne : pre ++ e ++ List.replicate k sep ≠ [] := by
    intro h
    simp only [List.append_eq_nil] at h
    exact he.1 h.1.2
  have hstrip : stripTrailingSeps (pre ++ e ++ List.replicate k sep) = pre ++ e :=
    stripTrailingSeps_append_seps (pre ++ e) k (getLast_append_elem pre e he)
  have hall : ∀ a ∈ e.reverse, (decide (a ≠ sep)) = true := by
    intro a ha
    have : a ∈ e := List.mem_reverse.1 ha
    simpa using fun h : a = sep => he.2 (h ▸ this)
  have hpre : List.takeWhile (fun c => decide (c ≠ sep)) pre.reverse = [] := by
    rcases hp with h | ⟨r2, h⟩
    · simp [h]
    · simp [h, List.takeWhile]
  have hlast : lastElem (pre ++ e) = e := by
    unfold lastElem
    rw [List.reverse_append, List.takeWhile_append_of_pos hall, hpre]
    simp
  unfold Base
  simp only [hne, if_false, hstrip, hlast]
  simp [he.1]

theorem Base_seps (k : Nat) :
    Base (List.replicate k sep) = if k = 0 then [dot] else [sep] := by
  cases k with
  | zero => rfl
  | succ k =>
    have hne : List.replicate (k + 1) sep ≠ [] := by simp
    have hstrip : stripTrailingSeps (List.replicate (k + 1) sep) = [] := by
      have := stripTrailingSeps_append_seps [] (k + 1) (by simp)
      simpa using this
    unfold Base
    simp only [hne, if_false, hstrip]
    simp [lastElem]

theorem path_decomposition (t : GoString) :
    (∃ k, t = List.replicate k sep)
    ∨ ∃ pre e k, IsDirPart pre ∧ IsElem e ∧ t = pre ++ e ++ List.replicate k sep := by
  induction t using List.reverseRecOn with
  | nil => exact Or.inl ⟨0, rfl⟩
  | append_singleton l a ih =>
    by_cases ha : a = sep
    · subst ha
      rcases ih with ⟨k, hk⟩ | ⟨pre, e, k, hp, he, hk⟩
      · exact Or.inl ⟨k + 1, by rw [hk, List.replicate_succ']⟩
      · exact Or.inr ⟨pre, e, k + 1, hp, he, by rw [hk, List.replicate_succ']; simp⟩
    · have hea : IsElem [a] := ⟨by simp, by simpa using fun h => ha h.symm⟩
      rcases ih with ⟨k, hk⟩ | ⟨pre, e, k, hp, he, hk⟩
      · refine Or.inr ⟨List.replicate k sep, [a], 0, ?_, hea, by simp [hk]⟩
        cases k with
        | zero => exact Or.inl rfl
        | succ k => exact Or.inr ⟨List.replicate k sep, List.replicate_succ' ..⟩
      · cases k with
        | zero =>
          refine Or.inr ⟨pre, e ++ [a], 0, hp, ⟨by simp, ?_⟩, by simp [hk]⟩
          intro hm
          rcases List.mem_append.1 hm with h | h
          · exact he.2 h
          · exact hea.2 h
        | succ k =>
          refine Or.inr ⟨pre ++ e ++ List.replicate (k + 1) sep, [a], 0, ?_, hea, by simp [hk]⟩
          exact Or.inr ⟨pre ++ e ++ List.replicate k sep, by
            rw [List.replicate_succ']; simp⟩

theorem Base_eq_lastComponent (t : GoString) :
    Base t = match lastComponent t with
      | some c => c
      | none => if t = [] then [dot] else [sep] := by
  rcases path_decomposition t with ⟨k, rfl⟩ | ⟨pre, e, k, hp, he, rfl⟩
  · rw [lastComponent_seps, Base_seps]
    cases k with
    | zero => rfl
    | succ k => simp
  · rw [lastComponent_decomposed pre e k hp he, Base_decomposed pre e k hp he]

/-! ## The claims -/

/-- C1: for every directory listing, the loop of `listThemes` prints exactly
the entries that are not directories and whose name ends in `.toml`, in the
order of the listing, each with the trailing `.toml` removed (appending
`.toml` to the printed names gives back the names of those entries), prints
nothing for any other entry and never panics; so `listThemes`, on a directory
that `ReadDir` lists as `entries`, prints the header and these names and
returns, the filesystem unchanged. -/
theorem C1_listThemes_emits_theme_names (entries : List DirEntry) :
    listLoop entries = ((themeNames entries).map Msg.theme, true)
    ∧ (themeNames entries).map (fun n => n ++ dotToml)
        = (entries.filter (fun e => decide (e.IsDir = false ∧ dotToml <:+ e.Name))).map DirEntry.Name
    ∧ ∀ (fs : FS) (starshipDir : GoString), ReadDir fs starshipDir = .ok entries →
        listThemes fs starshipDir
          = ⟨Msg.availableThemes :: (themeNames entries).map Msg.theme, .returned, fs⟩ := by
  refine ⟨listLoop_eq entries, themeNames_append_dotToml entries, ?_⟩
  intro fs starshipDir h
  simp [listThemes, h, listLoop_eq]

/-- C1 at the example of the specification: a directory holding `a.toml`,
`b.toml`, the directory `sub` and `notes.txt` lists `a` and `b`. -/
theorem C1_listThemes_witness :
    ReadDir exampleFS (ascii "/themes")
      = .ok [⟨ascii "a.toml", false⟩, ⟨ascii "b.toml", false⟩, ⟨ascii "notes.txt", false⟩,
             ⟨ascii "sub", true⟩]
    ∧ listThemes exampleFS (ascii "/themes")
      = ⟨[Msg.availableThemes, Msg.theme (ascii "a"), Msg.theme (ascii "b")], .returned,
          exampleFS⟩ :=
  ⟨rfl,
   ((C1_listThemes_emits_theme_names _).2.2 exampleFS (ascii "/themes") rfl).trans
     (by decide)⟩

/-- C2, as amended: in every filesystem state and for every theme name such
that the theme file `Join(starshipDir, themeName + ".toml")` exists and is
not a directory, whatever is at the configuration path (a regular file, a
symbolic link, or nothing): when the operating system carries out the calls
`changeTheme` makes (`os.Remove` of the entry `Lstat` finds there, if any,
then `os.Symlink`), `changeTheme` prints its success line and returns, and
afterwards the configuration path is a symbolic link holding exactly the
joined path of the theme file, which is absolute whenever `starshipDir` is;
when `os.Remove` or `os.Symlink` fails, `changeTheme` prints the error and
exits with status 1 (RemoveFailed, LinkCreateFailed). -/
theorem C2_changeTheme_links_config (fs : FS)
    (starshipDir starshipConfig themeName : GoString) (info : FileInfo)
    (hTheme : Stat fs (Join [starshipDir, themeName ++ dotToml]) = .ok info)
    (hNotDir : info.IsDir = false) :
    (∀ old fs1 fs2, Lstat fs starshipConfig = .ok old →
        Remove fs starshipConfig = .ok fs1 →
        Symlink fs1 (Join [starshipDir, themeName ++ dotToml]) starshipConfig = .ok fs2 →
        changeTheme fs starshipDir starshipConfig themeName
          = ⟨[Msg.changed themeName], .returned, fs2⟩
        ∧ Lstat fs2 starshipConfig = .ok ⟨FileKind.symlink⟩
        ∧ Readlink fs2 starshipConfig = .ok (Join [starshipDir, themeName ++ dotToml]))
    ∧ (∀ e fs2, Lstat fs starshipConfig = .error e →
        Symlink fs (Join [starshipDir, themeName ++ dotToml]) starshipConfig = .ok fs2 →
        changeTheme fs starshipDir starshipConfig themeName
          = ⟨[Msg.changed themeName], .returned, fs2⟩
        ∧ Lstat fs2 starshipConfig = .ok ⟨FileKind.symlink⟩
        ∧ Readlink fs2 starshipConfig = .ok (Join [starshipDir, themeName ++ dotToml]))
    ∧ (∀ old e, Lstat fs starshipConfig = .ok old → Remove fs starshipConfig = .error e →
        changeTheme fs starshipDir starshipConfig themeName
          = ⟨[Msg.removeError e], .exited 1, fs⟩)
    ∧ (∀ fs1 e, removeExisting fs starshipConfig = .ok fs1 →
        Symlink fs1 (Join [starshipDir, themeName ++ dotToml]) starshipConfig = .error e →
        changeTheme fs starshipDir starshipConfig themeName
          = ⟨[Msg.symlinkError e], .exited 1, fs1⟩)
    ∧ (starshipDir.head? = some sep →
        (Join [starshipDir, themeName ++ dotToml]).head? = some sep) := by
  refine ⟨?_, ?_, ?_, ?_, Join_rooted _ _⟩
  · intro old fs1 fs2 hl hrm hsy
    have hlook := Symlink_lookup fs1 _ _ _ hsy
    refine ⟨by simp [changeTheme, hTheme, hNotDir, removeExisting, hl, hrm, hsy], ?_, ?_⟩
    · simp [Lstat, hlook, INode.kind]
    · simp [Readlink, hlook]
  · intro e fs2 hl hsy
    have hlook := Symlink_lookup fs _ _ _ hsy
    refine ⟨by simp [changeTheme, hTheme, hNotDir, removeExisting, hl, hsy], ?_, ?_⟩
    · simp [Lstat, hlook, INode.kind]
    · simp [Readlink, hlook]
  · intro old e hl hrm
    simp [changeTheme, hTheme, hNotDir, removeExisting, hl, hrm]
  · intro fs1 e hrm hsy
    simp [changeTheme, hTheme, hNotDir, hrm, hsy]

/-- C2 as amended, at three inputs: in `exampleFS` the regular file `/cfg` is
replaced by a link to `/themes/a.toml`; in `linkedFS` the link `/cfg` is
repointed from `/themes/b.toml` to `/themes/a.toml`; and in `exampleFS` the
link is made at `/new`, where nothing was. -/
theorem C2_changeTheme_links_config_witness :
    (changeTheme exampleFS (ascii "/themes") (ascii "/cfg") (ascii "a")).exit = .returned
    ∧ Readlink (changeTheme exampleFS (ascii "/themes") (ascii "/cfg") (ascii "a")).fs
        (ascii "/cfg") = .ok (ascii "/themes/a.toml")
    ∧ Readlink (changeTheme linkedFS (ascii "/themes") (ascii "/cfg") (ascii "a")).fs
        (ascii "/cfg") = .ok (ascii "/themes/a.toml")
    ∧ Readlink (changeTheme exampleFS (ascii "/themes") (ascii "/new") (ascii "a")).fs
        (ascii "/new") = .ok (ascii "/themes/a.toml") := by
  have h1 := (C2_changeTheme_links_config exampleFS (ascii "/themes") (ascii "/cfg") (ascii "a")
    ⟨FileKind.regular⟩ rfl rfl).1 ⟨FileKind.regular⟩ _ _ rfl rfl rfl
  have h2 := (C2_changeTheme_links_config linkedFS (ascii "/themes") (ascii "/cfg") (ascii "a")
    ⟨FileKind.regular⟩ rfl rfl).1 ⟨FileKind.symlink⟩ _ _ rfl rfl rfl
  have h3 := (C2_changeTheme_links_config exampleFS (ascii "/themes") (ascii "/new") (ascii "a")
    ⟨FileKind.regular⟩ rfl rfl).2.1 .ENOENT _ rfl rfl
  refine ⟨?_, ?_, ?_, ?_⟩
  · rw [h1.1]
  · rw [h1.1]; exact h1.2.2
  · rw [h2.1]; exact h2.2.2
  · rw [h3.1]; exact h3.2.2

/-- C2 as stated fails.  (1) In `exampleFS` the theme file `/themes/a.toml`
exists and nothing is at `/nodir/starship.toml`, yet `changeTheme` exits 1:
the directory `/nodir` does not exist and the link cannot be made.  (2) In
`loopFS` the theme exists and the configuration path is a symbolic link, yet
`changeTheme` exits 1 after removing that link, because the path to its
directory led through it.  (3) With the relative directory `themes` the link
made at `/cfg` holds the relative string `themes/a.toml`, not an absolute
path. -/
theorem C2_changeTheme_may_fail :
    (Stat exampleFS (Join [ascii "/themes", ascii "a" ++ dotToml]) = .ok ⟨FileKind.regular⟩
      ∧ Lstat exampleFS (ascii "/nodir/starship.toml") = .error .ENOENT
      ∧ changeTheme exampleFS (ascii "/themes") (ascii "/nodir/starship.toml") (ascii "a")
          = ⟨[Msg.symlinkError .ENOENT], .exited 1, exampleFS⟩)
    ∧ (Stat loopFS (Join [ascii "/.config/starship.toml/.config/starship", ascii "a" ++ dotToml])
          = .ok ⟨FileKind.regular⟩
      ∧ Lstat loopFS (ascii "/.config/starship.toml/.config/starship.toml")
          = .ok ⟨FileKind.symlink⟩
      ∧ (changeTheme loopFS (ascii "/.config/starship.toml/.config/starship")
          (ascii "/.config/starship.toml/.config/starship.toml") (ascii "a")).out
          = [Msg.symlinkError .ENOENT]
      ∧ (changeTheme loopFS (ascii "/.config/starship.toml/.config/starship")
          (ascii "/.config/starship.toml/.config/starship.toml") (ascii "a")).exit
          = .exited 1)
    ∧ (Stat exampleFS (Join [ascii "themes", ascii "a" ++ dotToml]) = .ok ⟨FileKind.regular⟩
      ∧ (changeTheme exampleFS (ascii "themes") (ascii "/cfg") (ascii "a")).exit = .returned
      ∧ Readlink (changeTheme exampleFS (ascii "themes") (ascii "/cfg") (ascii "a")).fs
          (ascii "/cfg") = .ok (ascii "themes/a.toml")) :=
  ⟨⟨rfl, rfl, rfl⟩, ⟨rfl, rfl, rfl, rfl⟩, ⟨rfl, rfl, rfl⟩⟩

/-- C3, as amended: for every theme name without a path separator and every
filesystem state in which `changeTheme` returns (succeeds), `getCurrentTheme`
on the resulting state prints exactly that name as the current theme and
returns. -/
theorem C3_changeTheme_then_getCurrentTheme (fs : FS)
    (starshipDir starshipConfig themeName : GoString) (hName : sep ∉ themeName)
    (hOk : (changeTheme fs starshipDir starshipConfig themeName).exit = .returned) :
    getCurrentTheme (changeTheme fs starshipDir starshipConfig themeName).fs starshipConfig
      = ⟨[Msg.currentTheme themeName], .returned,
          (changeTheme fs starshipDir starshipConfig themeName).fs⟩ := by
  obtain ⟨fs1, hsym⟩ := changeTheme_returned fs starshipDir starshipConfig themeName hOk
  have hlook := Symlink_lookup fs1 _ _ _ hsym
  have hl : Lstat (changeTheme fs starshipDir starshipConfig themeName).fs starshipConfig
      = .ok ⟨FileKind.symlink⟩ := by simp [Lstat, hlook, INode.kind]
  have hr : Readlink (changeTheme fs starshipDir starshipConfig themeName).fs starshipConfig
      = .ok (Join [starshipDir, themeName ++ dotToml]) := by simp [Readlink, hlook]
  simp [getCurrentTheme, hl, hr, FileInfo.IsSymlink, themeNameOf_Join starshipDir themeName hName]

/-- C3 as amended, at `exampleFS`: after `change a`, `get` reports `a`. -/
theorem C3_changeTheme_then_getCurrentTheme_witness :
    getCurrentTheme (changeTheme exampleFS (ascii "/themes") (ascii "/cfg") (ascii "a")).fs
        (ascii "/cfg")
      = ⟨[Msg.currentTheme (ascii "a")], .returned,
          (changeTheme exampleFS (ascii "/themes") (ascii "/cfg") (ascii "a")).fs⟩ :=
  C3_changeTheme_then_getCurrentTheme exampleFS (ascii "/themes") (ascii "/cfg") (ascii "a")
    (by decide) (by decide)

/-- C3 as stated fails for a name with a separator: in `exampleFS`,
`changeTheme` with the name `sub/x` succeeds (the file `/themes/sub/x.toml`
exists), and `getCurrentTheme` then reports `x`, not `sub/x`. -/
theorem C3_round_trip_loses_directory_part :
    (changeTheme exampleFS (ascii "/themes") (ascii "/cfg") (ascii "sub/x")).exit = .returned
    ∧ (getCurrentTheme
          (changeTheme exampleFS (ascii "/themes") (ascii "/cfg") (ascii "sub/x")).fs
          (ascii "/cfg")).out = [Msg.currentTheme (ascii "x")]
    ∧ ascii "x" ≠ ascii "sub/x" :=
  ⟨by decide, by decide, by decide⟩

/-- C4, as amended: in every filesystem state and for every theme name such
that `Stat` of the theme file `Join(starshipDir, themeName + ".toml")` fails,
`changeTheme` exits with status 1 and leaves the whole filesystem, the
configuration path included, as it was: nothing is removed and no link is
made.  It prints the "No such file or directory" line (ThemeNotFound)
exactly when the failure is `ENOENT` (which is the answer of `Stat` whenever
`Lstat` answers `ENOENT`, i.e. when the path has no entry), and the "Error
checking theme file" line (StatError) for any other failure, such as
`ENOTDIR` for a path that runs through a regular file. -/
theorem C4_changeTheme_theme_not_found (fs : FS) (starshipDir starshipConfig themeName : GoString)
    (e : Errno)
    (h : Stat fs (Join [starshipDir, themeName ++ dotToml]) = .error e) :
    changeTheme fs starshipDir starshipConfig themeName
      = ⟨[if e = .ENOENT then Msg.noSuchFile themeName else Msg.statError e], .exited 1, fs⟩
    ∧ (changeTheme fs starshipDir starshipConfig themeName).exit.status = 1
    ∧ lookupNoFollow (changeTheme fs starshipDir starshipConfig themeName).fs starshipConfig
        = lookupNoFollow fs starshipConfig
    ∧ (Lstat fs (Join [starshipDir, themeName ++ dotToml]) = .error .ENOENT → e = .ENOENT) := by
  have hc : changeTheme fs starshipDir starshipConfig themeName
      = ⟨[if e = .ENOENT then Msg.noSuchFile themeName else Msg.statError e], .exited 1, fs⟩ := by
    cases e <;> simp [changeTheme, h, IsNotExist]
  refine ⟨hc, by simp [hc, Exit.status], by simp [hc], ?_⟩
  intro hl
  have hs := Stat_of_Lstat_enoent fs _ hl
  rw [h] at hs
  exact Except.error.inj hs

/-- C4 as amended, at the example state: there is no `/themes/zz.toml`, the
not-found line is printed and `/cfg` stays the regular file it was. -/
theorem C4_changeTheme_theme_not_found_witness :
    changeTheme exampleFS (ascii "/themes") (ascii "/cfg") (ascii "zz")
      = ⟨[Msg.noSuchFile (ascii "zz")], .exited 1, exampleFS⟩
    ∧ lookupNoFollow exampleFS (ascii "/cfg") = .ok .file :=
  ⟨(C4_changeTheme_theme_not_found exampleFS (ascii "/themes") (ascii "/cfg") (ascii "zz")
      .ENOENT rfl).1, rfl⟩

/-- C4 as stated fails: in `exampleFS` the theme name `a.toml/x` gives the
path `/themes/a.toml/x.toml`, which does not exist (`/themes/a.toml` is a
regular file, so nothing is below it: `Stat` and `Lstat` both fail), yet
`changeTheme` reports StatError ("Error checking theme file"), not
ThemeNotFound. -/
theorem C4_missing_theme_below_a_file_is_StatError :
    Join [ascii "/themes", ascii "a.toml/x" ++ dotToml] = ascii "/themes/a.toml/x.toml"
    ∧ Lstat exampleFS (ascii "/themes/a.toml") = .ok ⟨FileKind.regular⟩
    ∧ Stat exampleFS (ascii "/themes/a.toml/x.toml") = .error .ENOTDIR
    ∧ Lstat exampleFS (ascii "/themes/a.toml/x.toml") = .error .ENOTDIR
    ∧ changeTheme exampleFS (ascii "/themes") (ascii "/cfg") (ascii "a.toml/x")
        = ⟨[Msg.statError .ENOTDIR], .exited 1, exampleFS⟩
    ∧ Msg.noSuchFile (ascii "a.toml/x")
        ∉ (changeTheme exampleFS (ascii "/themes") (ascii "/cfg") (ascii "a.toml/x")).out :=
  ⟨by decide, rfl, rfl, rfl, by decide, by decide⟩

/-- C5, as amended: in every filesystem state `listThemes` and
`getCurrentTheme` leave the filesystem as it is, and so does `changeTheme`
whenever its check of the theme file fails or finds a directory, and
whenever `os.Remove` of the entry at the configuration path fails (as it does
for a non-empty directory): then that entry stays.  But `changeTheme` does
not check that the entry is a symbolic link: when the theme file exists and
is not a directory, it calls `os.Remove` on whatever `Lstat` finds at the
configuration path, a regular file included, and when that removal and the
following `os.Symlink` succeed, the configuration path is afterwards the
link to the theme file; the earlier entry is lost, without backup. -/
theorem C5_only_changeTheme_replaces_config (fs : FS)
    (starshipDir starshipConfig themeName : GoString) :
    (listThemes fs starshipDir).fs = fs
    ∧ (getCurrentTheme fs starshipConfig).fs = fs
    ∧ ((∀ info, Stat fs (Join [starshipDir, themeName ++ dotToml]) = .ok info →
          info.IsDir = true) →
        (changeTheme fs starshipDir starshipConfig themeName).fs = fs)
    ∧ (∀ old e, Lstat fs starshipConfig = .ok old → Remove fs starshipConfig = .error e →
        (changeTheme fs starshipDir starshipConfig themeName).fs = fs
        ∧ (changeTheme fs starshipDir starshipConfig themeName).exit = .exited 1)
    ∧ (∀ info old fs1 fs2, Stat fs (Join [starshipDir, themeName ++ dotToml]) = .ok info →
        info.IsDir = false → Lstat fs starshipConfig = .ok old →
        Remove fs starshipConfig = .ok fs1 →
        Symlink fs1 (Join [starshipDir, themeName ++ dotToml]) starshipConfig = .ok fs2 →
        changeTheme fs starshipDir starshipConfig themeName
          = ⟨[Msg.changed themeName], .returned, fs2⟩
        ∧ Lstat fs2 starshipConfig = .ok ⟨FileKind.symlink⟩
        ∧ Readlink fs2 starshipConfig = .ok (Join [starshipDir, themeName ++ dotToml])) := by
  refine ⟨?_, ?_, ?_, ?_, ?_⟩
  · unfold listThemes
    cases ReadDir fs starshipDir <;> rfl
  · unfold getCurrentTheme
    cases Lstat fs starshipConfig with
    | error e => simp only []; split <;> rfl
    | ok info =>
      simp only []
      split
      · cases Readlink fs starshipConfig with
        | error e => rfl
        | ok target => simp only []; cases themeNameOf target <;> rfl
      · rfl
  · intro h
    unfold changeTheme
    cases hst : Stat fs (Join [starshipDir, themeName ++ dotToml]) with
    | error e =>
      simp only [hst]
      by_cases hne : IsNotExist e = true <;> simp [hne]
    | ok info => simp [hst, h info hst]
  · intro old e hl hrm
    unfold changeTheme
    cases hst : Stat fs (Join [starshipDir, themeName ++ dotToml]) with
    | error e2 =>
      simp only [hst]
      by_cases hne : IsNotExist e2 = true <;> simp [hne]
    | ok info =>
      by_cases hd : info.IsDir = true
      · simp [hst, hd]
      · simp [hst, hd, removeExisting, hl, hrm]
  · intro info old fs1 fs2 hst hnd hl hrm hsy
    have hlook := Symlink_lookup fs1 _ _ _ hsy
    refine ⟨by simp [changeTheme, hst, hnd, removeExisting, hl, hrm, hsy], ?_, ?_⟩
    · simp [Lstat, hlook, INode.kind]
    · simp [Readlink, hlook]

/-- C5 as amended, at `exampleFS`: the regular file `/cfg` becomes a link to
`/themes/a.toml`; the non-empty directory `/themes`, given as configuration
path, stays, since `os.Remove` fails on it; and a request for the missing
theme `zz` changes nothing. -/
theorem C5_only_changeTheme_replaces_config_witness :
    Lstat exampleFS (ascii "/cfg") = .ok ⟨FileKind.regular⟩
    ∧ Lstat (changeTheme exampleFS (ascii "/themes") (ascii "/cfg") (ascii "a")).fs (ascii "/cfg")
      = .ok ⟨FileKind.symlink⟩
    ∧ Remove exampleFS (ascii "/themes") = .error .ENOTEMPTY
    ∧ (changeTheme exampleFS (ascii "/themes") (ascii "/themes") (ascii "a")).fs = exampleFS
    ∧ (changeTheme exampleFS (ascii "/themes") (ascii "/cfg") (ascii "zz")).fs = exampleFS := by
  have h1 := (C5_only_changeTheme_replaces_config exampleFS (ascii "/themes") (ascii "/cfg")
    (ascii "a")).2.2.2.2 ⟨FileKind.regular⟩ ⟨FileKind.regular⟩ _ _ rfl rfl rfl rfl rfl
  have h2 := (C5_only_changeTheme_replaces_config exampleFS (ascii "/themes") (ascii "/themes")
    (ascii "a")).2.2.2.1 ⟨FileKind.directory⟩ .ENOTEMPTY rfl rfl
  have h3 := (C5_only_changeTheme_replaces_config exampleFS (ascii "/themes") (ascii "/cfg")
    (ascii "zz")).2.2.1 (fun info h => by
      have h4 : Stat exampleFS (Join [ascii "/themes", ascii "zz" ++ dotToml])
          = .error .ENOENT := rfl
      rw [h4] at h
      cases h)
  refine ⟨rfl, ?_, rfl, h2.1, h3⟩
  rw [h1.1]
  exact h1.2.1

/-- C5 as stated fails: in `exampleFS` the configuration path `/cfg` exists
and is a regular file, not a symbolic link, and `changeTheme` with the
existing theme `a` removes it: afterwards `/cfg` is a symbolic link, and the
filesystem is no longer the one it was. -/
theorem C5_changeTheme_overwrites_regular_file :
    Lstat exampleFS (ascii "/cfg") = .ok ⟨FileKind.regular⟩
    ∧ (changeTheme exampleFS (ascii "/themes") (ascii "/cfg") (ascii "a")).exit = .returned
    ∧ Lstat (changeTheme exampleFS (ascii "/themes") (ascii "/cfg") (ascii "a")).fs
        (ascii "/cfg") = .ok ⟨FileKind.symlink⟩
    ∧ (changeTheme exampleFS (ascii "/themes") (ascii "/cfg") (ascii "a")).fs ≠ exampleFS :=
  ⟨rfl, rfl, rfl, by decide⟩

/-- C6, as amended: in every filesystem state in which `Lstat` of the
configuration path fails, `getCurrentTheme` prints one line, returns
normally and leaves the filesystem as it was, and when that path is the one
`main` builds from a non-empty `$HOME`, the run of `startheme get` ends the
same way, with exit status 0.  The line is "No starship config found"
exactly when the failure is `ENOENT` (the path does not exist, in the sense
of `os.IsNotExist`); for any other failure, such as `ENOTDIR` when a
directory on the way is a regular file, it is the "Error checking config"
line. -/
theorem C6_getCurrentTheme_absent (fs : FS) (starshipConfig : GoString) (e : Errno)
    (h : Lstat fs starshipConfig = .error e) :
    getCurrentTheme fs starshipConfig
      = ⟨[if e = .ENOENT then Msg.noConfigFound else Msg.lstatError e], .returned, fs⟩
    ∧ (getCurrentTheme fs starshipConfig).exit.status = 0
    ∧ ∀ prog home : GoString, home ≠ [] →
        starshipConfig = Join [home, ascii ".config", ascii "starship.toml"] →
        main [prog, ascii "get"] home fs
          = ⟨[if e = .ENOENT then Msg.noConfigFound else Msg.lstatError e], .returned, fs⟩
        ∧ (main [prog, ascii "get"] home fs).exit.status = 0 := by
  have hg : getCurrentTheme fs starshipConfig
      = ⟨[if e = .ENOENT then Msg.noConfigFound else Msg.lstatError e], .returned, fs⟩ := by
    cases e <;> simp [getCurrentTheme, h, IsNotExist]
  refine ⟨hg, by simp [hg, Exit.status], ?_⟩
  intro prog home hh hc
  rw [main_get prog home fs hh, ← hc, hg]
  exact ⟨rfl, rfl⟩

/-- C6 as amended, at the example state, where `/nothing` does not exist,
and at `homeFileFS` through `main`. -/
theorem C6_getCurrentTheme_absent_witness :
    Lstat exampleFS (ascii "/nothing") = .error .ENOENT
    ∧ getCurrentTheme exampleFS (ascii "/nothing") = ⟨[Msg.noConfigFound], .returned, exampleFS⟩
    ∧ main [ascii "startheme", ascii "get"] (ascii "/h") homeFileFS
        = ⟨[Msg.lstatError .ENOTDIR], .returned, homeFileFS⟩ :=
  ⟨rfl, (C6_getCurrentTheme_absent exampleFS (ascii "/nothing") .ENOENT rfl).1,
   ((C6_getCurrentTheme_absent homeFileFS (ascii "/h/.config/starship.toml") .ENOTDIR rfl).2.2
      (ascii "startheme") (ascii "/h") (by decide) (by decide)).1⟩

/-- C6 as stated fails: in `homeFileFS` the entry `/h/.config` is a regular
file, so nothing exists at the configuration path
`/h/.config/starship.toml`; `Lstat` answers `ENOTDIR` and `startheme get`
(with `$HOME` set to `/h`) prints the "Error checking config" line, not
"No starship config found". -/
theorem C6_path_through_a_file_is_an_error :
    Lstat homeFileFS (ascii "/h/.config") = .ok ⟨FileKind.regular⟩
    ∧ Join [ascii "/h", ascii ".config", ascii "starship.toml"]
        = ascii "/h/.config/starship.toml"
    ∧ Lstat homeFileFS (ascii "/h/.config/starship.toml") = .error .ENOTDIR
    ∧ Stat homeFileFS (ascii "/h/.config/starship.toml") = .error .ENOTDIR
    ∧ getCurrentTheme homeFileFS (ascii "/h/.config/starship.toml")
        = ⟨[Msg.lstatError .ENOTDIR], .returned, homeFileFS⟩
    ∧ main [ascii "startheme", ascii "get"] (ascii "/h") homeFileFS
        = ⟨[Msg.lstatError .ENOTDIR], .returned, homeFileFS⟩
    ∧ Msg.noConfigFound ∉ (main [ascii "startheme", ascii "get"] (ascii "/h") homeFileFS).out :=
  ⟨rfl, by decide, rfl, rfl, by decide, by decide, by decide⟩

/-- C7: in every filesystem state in which the configuration path exists and
is not a symbolic link (`Lstat` answers a regular file or a directory),
`getCurrentTheme` prints the "not managed by startheme" line and nothing else
(no theme name, no "No starship config found"), returns normally and leaves
the filesystem as it was; and when that path is the one `main` builds from a
non-empty `$HOME`, the run of `startheme get` ends the same way, with exit
status 0. -/
theorem C7_getCurrentTheme_not_symlink (fs : FS) (starshipConfig : GoString) (info : FileInfo)
    (h : Lstat fs starshipConfig = .ok info) (hk : info.kind ≠ FileKind.symlink) :
    getCurrentTheme fs starshipConfig = ⟨[Msg.notManaged], .returned, fs⟩
    ∧ (getCurrentTheme fs starshipConfig).exit.status = 0
    ∧ Msg.noConfigFound ∉ (getCurrentTheme fs starshipConfig).out
    ∧ (∀ name, Msg.currentTheme name ∉ (getCurrentTheme fs starshipConfig).out)
    ∧ ∀ prog home : GoString, home ≠ [] →
        starshipConfig = Join [home, ascii ".config", ascii "starship.toml"] →
        main [prog, ascii "get"] home fs = ⟨[Msg.notManaged], .returned, fs⟩
        ∧ (main [prog, ascii "get"] home fs).exit.status = 0 := by
  have hs : info.IsSymlink = false := by
    cases info with
    | mk k => cases k <;> simp_all [FileInfo.IsSymlink]
  have hg : getCurrentTheme fs starshipConfig = ⟨[Msg.notManaged], .returned, fs⟩ := by
    simp [getCurrentTheme, h, hs]
  refine ⟨hg, by simp [hg, Exit.status], by simp [hg], by simp [hg], ?_⟩
  intro prog home hh hc
  rw [main_get prog home fs hh, ← hc, hg]
  exact ⟨rfl, rfl⟩

/-- C7 at the example state, where `/cfg` is a regular file, and at its root
directory. -/
theorem C7_getCurrentTheme_not_symlink_witness :
    Lstat exampleFS (ascii "/cfg") = .ok ⟨FileKind.regular⟩
    ∧ getCurrentTheme exampleFS (ascii "/cfg") = ⟨[Msg.notManaged], .returned, exampleFS⟩
    ∧ getCurrentTheme exampleFS (ascii "/themes") = ⟨[Msg.notManaged], .returned, exampleFS⟩ :=
  ⟨rfl,
   (C7_getCurrentTheme_not_symlink exampleFS (ascii "/cfg") ⟨FileKind.regular⟩ rfl
    (by decide)).1,
   (C7_getCurrentTheme_not_symlink exampleFS (ascii "/themes") ⟨FileKind.directory⟩ rfl
    (by decide)).1⟩

/-- C8: for every argument vector `[program, "change"]` (the subcommand
`change` with no second argument), every value of `$HOME` and every
filesystem state, `main` exits with status 1 having printed only the
home-directory error (when `$HOME` is empty) or the "missing arguments" line,
and the filesystem is unchanged: `changeTheme` is not reached. -/
theorem C8_main_change_without_argument (prog home : GoString) (fs : FS) :
    main [prog, ascii "change"] home fs
      = ⟨[if home = [] then Msg.homeDirError else Msg.missingArguments], .exited 1, fs⟩
    ∧ (main [prog, ascii "change"] home fs).exit.status = 1
    ∧ (main [prog, ascii "change"] home fs).fs = fs := by
  have h1 : ascii "change" ≠ ascii "list" := by decide
  by_cases hh : home = [] <;> simp [main, hh, h1, Exit.status]

/-- C9: in every filesystem state in which the configuration path is a
symbolic link with immediate target `t` (the string stored in the link, not
resolved further), `getCurrentTheme` prints as the current theme the final
path component of `t`, without its trailing `.toml` when it ends in `.toml`
and unchanged otherwise; the slice of line 142 never panics, the function
returns and the filesystem is unchanged.  The component is `filepath.Base t`,
which is proved to be the last non-empty piece of `t` between separators
(trailing separators do not count), and `.` for the empty target, `/` for a
target of separators only, where there is no such piece. -/
theorem C9_getCurrentTheme_symlink (fs : FS) (starshipConfig t : GoString)
    (h : lookupNoFollow fs starshipConfig = .ok (.symlink t)) :
    Lstat fs starshipConfig = .ok ⟨FileKind.symlink⟩
    ∧ Readlink fs starshipConfig = .ok t
    ∧ (∃ name, getCurrentTheme fs starshipConfig = ⟨[Msg.currentTheme name], .returned, fs⟩
        ∧ (dotToml <:+ Base t → name ++ dotToml = Base t)
        ∧ (¬ dotToml <:+ Base t → name = Base t)
        ∧ ∀ c, lastComponent t = some c →
            (dotToml <:+ c → name ++ dotToml = c) ∧ (¬ dotToml <:+ c → name = c))
    ∧ (∀ c, lastComponent t = some c → Base t = c)
    ∧ (lastComponent t = none → Base t = if t = [] then [dot] else [sep])
    ∧ ∀ pre e : GoString, IsDirPart pre → IsFileName e → t = pre ++ e → Base t = e := by
  have hl : Lstat fs starshipConfig = .ok ⟨FileKind.symlink⟩ := by simp [Lstat, h, INode.kind]
  have hr : Readlink fs starshipConfig = .ok t := by simp [Readlink, h]
  obtain ⟨name, hn, h1, h2⟩ := themeNameOf_spec t
  have hb := Base_eq_lastComponent t
  have hsome : ∀ c, lastComponent t = some c → Base t = c := by
    intro c hc
    rw [hb, hc]
  refine ⟨hl, hr, ⟨name, by simp [getCurrentTheme, hl, hr, hn, FileInfo.IsSymlink], h1, h2, ?_⟩,
    hsome, ?_, ?_⟩
  · intro c hc
    rw [← hsome c hc]
    exact ⟨h1, h2⟩
  · intro hc
    rw [hb, hc]
  · intro pre e hp he ht
    rw [ht]
    exact Base_dirPart_fileName pre e hp he

/-- C9 at `linkedFS`, where `/cfg` holds `/themes/b.toml`, and at
`slashLinkFS`, where it holds `themes/a.toml//` with trailing separators:
the themes reported are `b` and `a`. -/
theorem C9_getCurrentTheme_symlink_witness :
    lastComponent (ascii "/themes/b.toml") = some (ascii "b.toml")
    ∧ lastComponent (ascii "themes/a.toml//") = some (ascii "a.toml")
    ∧ getCurrentTheme linkedFS (ascii "/cfg")
        = ⟨[Msg.currentTheme (ascii "b")], .returned, linkedFS⟩
    ∧ getCurrentTheme slashLinkFS (ascii "/cfg")
        = ⟨[Msg.currentTheme (ascii "a")], .returned, slashLinkFS⟩ := by
  have hb : dotToml <:+ ascii "b.toml" := by decide
  have ha : dotToml <:+ ascii "a.toml" := by decide
  obtain ⟨n1, hg1, _, _, hc1⟩ :=
    (C9_getCurrentTheme_symlink linkedFS (ascii "/cfg") (ascii "/themes/b.toml") rfl).2.2.1
  obtain ⟨n2, hg2, _, _, hc2⟩ :=
    (C9_getCurrentTheme_symlink slashLinkFS (ascii "/cfg") (ascii "themes/a.toml//") rfl).2.2.1
  have e1 : n1 = ascii "b" :=
    List.append_cancel_right (((hc1 (ascii "b.toml") (by decide)).1 hb).trans (by decide))
  have e2 : n2 = ascii "a" :=
    List.append_cancel_right (((hc2 (ascii "a.toml") (by decide)).1 ha).trans (by decide))
  rw [e1] at hg1
  rw [e2] at hg2
  exact ⟨by decide, by decide, hg1, hg2⟩

/-- C10, as amended: for every filesystem state and every themes directory
given by a cleaned path (`Clean starshipDir = starshipDir`, which holds for
the path `main` builds with `filepath.Join` from a non-empty `$HOME`) whose
entries have distinct proper file names and are regular files and
directories only, every theme name `n` that `listThemes` prints passes the
existence check of `changeTheme`: the joined path
`Join(starshipDir, n + ".toml")` resolves to the very entry `n.toml` of that
directory, a regular file, so `Stat` succeeds with a non-directory and
`changeTheme` prints neither the "No such file or directory" line nor the
"is a directory" line. -/
theorem C10_listed_theme_passes_check (fs : FS)
    (starshipDir starshipConfig n : GoString) (es : List (GoString × Nat))
    (hPath : Clean starshipDir = starshipDir
      ∨ ∃ home, home ≠ [] ∧ starshipDir = Join [home, ascii ".config", ascii "starship"])
    (hDir : lookupFollow fs starshipDir = .ok (.dir es))
    (hNames : ∀ e ∈ es, IsFileName e.1)
    (hNodup : (es.map Prod.fst).Nodup)
    (hKinds : ∀ e ∈ es, entryKind fs e.2 = some FileKind.regular
      ∨ entryKind fs e.2 = some FileKind.directory)
    (hEmit : Msg.theme n ∈ (listThemes fs starshipDir).out) :
    ∃ i, (n ++ dotToml, i) ∈ es ∧ fs.inodes[i]? = some .file
      ∧ (∃ up, resolve fs.inodes maxSymlinks (startOf fs (Join [starshipDir, n ++ dotToml]))
            (pathComps (Join [starshipDir, n ++ dotToml])) = .ok (i :: up))
      ∧ Stat fs (Join [starshipDir, n ++ dotToml]) = .ok ⟨FileKind.regular⟩
      ∧ (changeTheme fs starshipDir starshipConfig n).out ≠ [Msg.noSuchFile n]
      ∧ (changeTheme fs starshipDir starshipConfig n).out ≠ [Msg.isDirectory n] := by
  have hClean : Clean starshipDir = starshipDir := by
    rcases hPath with h | ⟨home, hh, rfl⟩
    · exact h
    · exact starshipDir_cleaned home _ hh
  have hrd := ReadDir_of_dir fs starshipDir es hDir
  simp only [listThemes, hrd, listLoop_eq, List.mem_cons, List.mem_map] at hEmit
  have hn : n ∈ themeNames ((es.map (toDirEntry fs.inodes)).insertionSort
      (fun a b => bytesLe a.Name b.Name = true)) := by
    rcases hEmit with h | ⟨m, hm, hmn⟩
    · cases h
    · cases hmn
      exact hm
  have hentry := mem_themeNames _ n hn
  rw [(List.perm_insertionSort _ _).mem_iff] at hentry
  obtain ⟨⟨nm, i⟩, hmem, hto⟩ := List.mem_map.1 hentry
  have hfile : nm = n ++ dotToml ∧ fs.inodes[i]? = some .file := by
    rcases hKinds _ hmem with hk | hk
    · have hk2 := entryKind_regular fs i hk
      simp only [toDirEntry, hk2, DirEntry.mk.injEq] at hto
      exact ⟨hto.1, hk2⟩
    · obtain ⟨sub, hk2⟩ := entryKind_directory fs i hk
      simp [toDirEntry, hk2] at hto
  obtain ⟨rfl, hi⟩ := hfile
  have hfn : IsFileName (n ++ dotToml) := hNames _ hmem
  have hl := lookupEntry_of_mem es _ i hmem hNodup
  obtain ⟨up, hr⟩ := resolve_Join fs starshipDir (n ++ dotToml) es i .file hClean hfn hDir hl hi
    (by simp [INode.kind])
  have hne : Join [starshipDir, n ++ dotToml] ≠ [] := by
    obtain ⟨pre, _, hj⟩ := Join_dir_fileName starshipDir _ hfn
    rw [hj]
    simp [hfn.1]
  have hst : Stat fs (Join [starshipDir, n ++ dotToml]) = .ok ⟨FileKind.regular⟩ := by
    simp [Stat, lookupFollow_of_resolve fs _ .file i up hne hr hi, INode.kind]
  exact ⟨i, hmem, hi, ⟨up, hr⟩, hst, changeTheme_out_of_regular fs _ _ _ hst⟩

/-- C10 as amended, at `exampleFS`: the listed theme `a` is the entry
`a.toml` (inode 3) of `/themes`. -/
theorem C10_listed_theme_passes_check_witness :
    ∃ i, (ascii "a" ++ dotToml, i) ∈
        [(ascii "b.toml", 2), (ascii "a.toml", 3), (ascii "sub", 4), (ascii "notes.txt", 5)]
      ∧ exampleFS.inodes[i]? = some .file
      ∧ (∃ up, resolve exampleFS.inodes maxSymlinks
            (startOf exampleFS (Join [ascii "/themes", ascii "a" ++ dotToml]))
            (pathComps (Join [ascii "/themes", ascii "a" ++ dotToml])) = .ok (i :: up))
      ∧ Stat exampleFS (Join [ascii "/themes", ascii "a" ++ dotToml]) = .ok ⟨FileKind.regular⟩
      ∧ (changeTheme exampleFS (ascii "/themes") (ascii "/cfg") (ascii "a")).out
          ≠ [Msg.noSuchFile (ascii "a")]
      ∧ (changeTheme exampleFS (ascii "/themes") (ascii "/cfg") (ascii "a")).out
          ≠ [Msg.isDirectory (ascii "a")] :=
  C10_listed_theme_passes_check exampleFS (ascii "/themes") (ascii "/cfg") (ascii "a")
    [(ascii "b.toml", 2), (ascii "a.toml", 3), (ascii "sub", 4), (ascii "notes.txt", 5)]
    (Or.inl (by decide)) rfl (by decide) (by decide) (by decide) (by decide)

/-- C10 as stated fails for a themes path that cleaning changes: in
`detourFS` the path `/a/../themes` leads, through the link `/a`, to the
directory `/x/themes`, whose only entry is the regular file `t.toml`;
`listThemes` prints `t`, but `changeTheme` checks the cleaned path
`/themes/t.toml`, which does not exist, and reports ThemeNotFound. -/
theorem C10_uncleaned_path_breaks_consistency :
    lookupFollow detourFS (ascii "/a/../themes") = .ok (.dir [(ascii "t.toml", 5)])
    ∧ detourFS.inodes[5]? = some .file
    ∧ listThemes detourFS (ascii "/a/../themes")
        = ⟨[Msg.availableThemes, Msg.theme (ascii "t")], .returned, detourFS⟩
    ∧ Join [ascii "/a/../themes", ascii "t" ++ dotToml] = ascii "/themes/t.toml"
    ∧ changeTheme detourFS (ascii "/a/../themes") (ascii "/cfg") (ascii "t")
        = ⟨[Msg.noSuchFile (ascii "t")], .exited 1, detourFS⟩ :=
  ⟨rfl, rfl, by decide, by decide, by decide⟩

end Startheme
